import Mathlib

/-!
A verification development for the BibCC repository (bib2py.py, completer.py,
checker.py, quoter.py).  The core data model and operations of the template
matching and reconciliation engine are shallowly embedded below: strings are
lists of characters, Python dicts are association lists that preserve
insertion order, and the straight-line file I/O of the store regenerator is
modelled as an explicit event trace.
-/

set_option autoImplicit false
set_option maxHeartbeats 1000000

namespace BibCC

/-- Strings are modelled as lists of characters (Python `str`). -/
abbrev Str := List Char

/-- Convert a Lean string literal into the character-list representation. -/
def str (s : String) : Str := s.data

/-- The double-quote character. -/
def chQuote : Char := Char.ofNat 34

/-- The single-quote character. -/
def chApos : Char := Char.ofNat 39

/-- The opening curly brace character. -/
def chLB : Char := Char.ofNat 123

/-- The closing curly brace character. -/
def chRB : Char := Char.ofNat 125

/-- Whitespace as recognised by Python `str.strip` (ASCII fragment; the
sources only ever strip ASCII text). -/
def isWS (c : Char) : Bool := c = ' ' || c = '\t' || c = '\n' || c = '\r'

def trimLeft (s : Str) : Str := s.dropWhile isWS

def trimRight (s : Str) : Str := (s.reverse.dropWhile isWS).reverse

/-- Python `str.strip()`. -/
def pstrip (s : Str) : Str := trimRight (trimLeft s)

/-- Python `str.lower()` (ASCII fragment; `Char.toLower` lowers exactly the
ASCII letters, which matches Python on the ASCII range). -/
def plower (s : Str) : Str := s.map Char.toLower

/-- `normalize_text`, src/completer.py lines 13-16 and src/bib2py.py lines
30-33: strip all literal braces, trim surrounding whitespace, lower-case.
The Python guard `if not text: return ""` is the identity on the empty
string, so the pipeline below is exactly the source behaviour on strings. -/
def normalize_text (s : Str) : Str :=
  plower (pstrip (s.filter (fun c => !(c = chLB || c = chRB))))

/-! ### Ordered dictionaries

Python 3 dicts preserve insertion order.  They are modelled as association
lists with unique keys; `dinsert` is dict assignment (replaces in place,
otherwise appends), `dsetdefault` is `dict.setdefault`, `derase` is `del`. -/

abbrev Dict (α β : Type) := List (α × β)

def dlookup {α β : Type} [BEq α] (k : α) (d : Dict α β) : Option β :=
  (d.find? (fun p => p.1 == k)).map Prod.snd

def dmem {α β : Type} [BEq α] (k : α) (d : Dict α β) : Bool :=
  (dlookup k d).isSome

/-- Dict assignment `d[k] = v`: replace in place if present, else append. -/
def dinsert {α β : Type} [BEq α] (k : α) (v : β) (d : Dict α β) : Dict α β :=
  if dmem k d then d.map (fun p => if p.1 == k then (k, v) else p) else d ++ [(k, v)]

/-- `dict.setdefault d k v`: insert only if the key is absent. -/
def dsetdefault {α β : Type} [BEq α] (k : α) (v : β) (d : Dict α β) : Dict α β :=
  if dmem k d then d else d ++ [(k, v)]

/-- `del d[k]`. -/
def derase {α β : Type} [BEq α] (k : α) (d : Dict α β) : Dict α β :=
  d.filter (fun p => !(p.1 == k))

def dkeys {α β : Type} (d : Dict α β) : List α := d.map Prod.fst

/-! ### Entries, templates, merges -/

/-- A parsed bibliography entry: the ordered field map handed back by the
external parser, including the `ID` and `ENTRYTYPE` pseudo-fields. -/
abbrev Entry := Dict Str Str

/-- The canonical store: ordered map from raw (venue, year) to a field map. -/
abbrev Store := Dict (Str × Str) (Dict Str Str)

/-- `EXCLUDED_KEYS`, src/bib2py.py lines 10-27: identity/citation fields that
never enter templates. -/
def EXCLUDED_KEYS : List Str :=
  [str "ID", str "ENTRYTYPE", str "year", str "booktitle", str "journal",
   str "title", str "author", str "pages", str "volume", str "url",
   str "doi", str "pdf", str "numpages", str "articleno", str "number",
   str "note"]

/-- src/bib2py.py line 94: `meta = {k: v for k, v in entry.items() if k not in
EXCLUDED_KEYS}`. -/
def metaOf (entry : Entry) : Dict Str Str :=
  entry.filter (fun kv => !(EXCLUDED_KEYS.contains kv.1))

/-- Python truthiness of an optional string (`None` and `""` are falsy). -/
def truthy (o : Option Str) : Bool := !(o.getD []).isEmpty

/-- Python `a or b` on optional strings: `b` whenever `a` is falsy. -/
def pyOr (a b : Option Str) : Option Str := if truthy a then a else b

/-- Result of the completion-mode merge (src/completer.py lines 74-87). -/
structure CMergeOut where
  patch : Dict Str Str
  conflicts : List (Str × Str × Str)
deriving DecidableEq

/-- src/completer.py lines 74-87: walk the template's fields in order; a field
absent from the entry joins the patch, a present field with a different
normalized value is recorded as a conflict `(field, existing, template)`.
Neither the entry nor the store is touched. -/
def completionMerge (entry : Entry) (tpl : Dict Str Str) : CMergeOut :=
  tpl.foldl
    (fun acc kv =>
      match dlookup kv.1 entry with
      | none => ⟨acc.patch ++ [kv], acc.conflicts⟩
      | some ev =>
        if normalize_text ev = normalize_text kv.2 then acc
        else ⟨acc.patch, acc.conflicts ++ [(kv.1, ev, kv.2)]⟩)
    ⟨[], []⟩

/-- src/completer.py lines 60-67: linear scan over `TEMPLATES.items()`,
`break` on the first entry whose normalized key matches. -/
def findTemplate (templates : Store) (cv cy : Str) : Option (Dict Str Str) :=
  (templates.find? (fun kv =>
    normalize_text kv.1.1 == cv && normalize_text kv.1.2 == cy)).map Prod.snd

/-- Result of the ingestion-mode merge (src/bib2py.py lines 100-112). -/
structure IMergeOut where
  merged : Dict Str Str
  missingFields : List Str
  differingFields : List Str
deriving DecidableEq

/-- src/bib2py.py lines 100-112: start from a copy of the template, walk the
(excluded-filtered) entry fields; absent fields are added, fields with a
differing normalized value overwrite the template copy ("prefer new value"). -/
def ingestionMerge (tpl meta : Dict Str Str) : IMergeOut :=
  meta.foldl
    (fun acc kv =>
      match dlookup kv.1 acc.merged with
      | none => ⟨dinsert kv.1 kv.2 acc.merged, acc.missingFields ++ [kv.1], acc.differingFields⟩
      | some cur =>
        if normalize_text cur = normalize_text kv.2 then acc
        else ⟨dinsert kv.1 kv.2 acc.merged, acc.missingFields, acc.differingFields ++ [kv.1]⟩)
    ⟨tpl, [], []⟩

/-- Normalized key of a raw (venue, year) pair. -/
def normKey (kv : Str × Str) : Str × Str := (normalize_text kv.1, normalize_text kv.2)

/-- src/bib2py.py lines 70-72: the normalized index is a dict comprehension
over the store's keys; a later key with the same normalized form overwrites
an earlier one. -/
def buildNormIndex (keys : List (Str × Str)) : Dict (Str × Str) (Str × Str) :=
  keys.foldl (fun m kv => dinsert (normKey kv) kv m) []

/-- In-memory state of the ingestion run: the store plus its normalized index
(src/bib2py.py lines 69-72). -/
structure IngState where
  existing : Store
  normIndex : Dict (Str × Str) (Str × Str)
deriving DecidableEq

/-- One iteration of the entry loop of src/bib2py.py lines 81-123, restricted
to its effect on the store and the index (the printed snippets and counters
are console output only).  `existing[match_key]` cannot fail because index
values are store keys; the `getD` default is never reached on reachable
states. -/
def bib2pyStep (s : IngState) (entry : Entry) : IngState :=
  let venue := pyOr (dlookup (str "booktitle") entry) (dlookup (str "journal") entry)
  let year := dlookup (str "year") entry
  if !truthy venue || !truthy year then s
  else
    let v := (venue.getD [])
    let y := (year.getD [])
    let nk := (normalize_text v, normalize_text y)
    let meta := metaOf entry
    match dlookup nk s.normIndex with
    | some mk =>
      let tpl := (dlookup mk s.existing).getD []
      let m := ingestionMerge tpl meta
      if !m.missingFields.isEmpty || !m.differingFields.isEmpty then
        { s with existing := dinsert mk m.merged s.existing }
      else s
    | none =>
      { existing := dinsert (v, y) meta s.existing
        normIndex := dinsert nk (v, y) s.normIndex }

/-! ### Year values and export order -/

/-- Base-10 value of a digit string (`int(digits)`). -/
def digitsToNat (ds : Str) : Nat :=
  ds.foldl (fun acc c => 10 * acc + (c.toNat - 48)) 0

/-- `_year_value`, src/bib2py.py lines 54-61: concatenate the digits of the
year string and read them as a number; no digits means -1.  (`Char.isDigit`
is the ASCII digit test; for ASCII year strings `int` cannot fail, so the
`except ValueError` branch is unreachable in this model.) -/
def yearValue (s : Str) : Int :=
  let ds := s.filter Char.isDigit
  if ds.isEmpty then -1 else (digitsToNat ds : Int)

/-- Lexicographic code-point comparison, Python `str.__lt__`. -/
def strLt : Str → Str → Bool
  | _, [] => false
  | [], _ :: _ => true
  | a :: as, b :: bs =>
    if a.toNat < b.toNat then true
    else if b.toNat < a.toNat then false
    else strLt as bs

/-- One store item: raw (venue, year) key and its field map. -/
abbrev TplItem := (Str × Str) × Dict Str Str

/-- Strict comparison realising the sort key of src/bib2py.py lines 142-145:
`(-_year_value(year), venue.lower())` in ascending lexicographic order, i.e.
descending year value with an ascending case-insensitive venue tie-break. -/
def ltItem (a b : TplItem) : Bool :=
  let ya := yearValue a.1.2
  let yb := yearValue b.1.2
  if yb < ya then true
  else if ya = yb then strLt (plower a.1.1) (plower b.1.1)
  else false

/-- Stable insertion: `x` goes in front of the first element not strictly
below it, hence after every earlier element with an equal key. -/
def insertSorted (x : TplItem) : List TplItem → List TplItem
  | [] => [x]
  | y :: ys => if ltItem y x then y :: insertSorted x ys else x :: y :: ys

/-- Stable sort by the key of `ltItem`.  Python `sorted` is a stable sort
with the same key, and stable sorts for a fixed total preorder agree, so this
models src/bib2py.py lines 142-145 exactly. -/
def exportStore : List TplItem → List TplItem
  | [] => []
  | x :: xs => insertSorted x (exportStore xs)

/-! ### Value cleaning and Python `repr` for the regenerated store

src/bib2py.py line 151 renders each field value as
`repr(str(v).replace("\n", " ").replace("\r", "").strip())`. -/

/-- `.replace("\n", " ")`. -/
def replaceNL (s : Str) : Str := s.map (fun c => if c = '\n' then ' ' else c)

/-- `.replace("\r", "")`. -/
def dropCR (s : Str) : Str := s.filter (fun c => !(c = '\r'))

/-- The whitespace normalization applied to every value before serialization
(src/bib2py.py line 151). -/
def cleanVal (s : Str) : Str := pstrip (dropCR (replaceNL s))

/-- Lower-case hex digit, as used by Python `repr`'s `\xNN` escapes. -/
def hexDig (n : Nat) : Char :=
  match n with
  | 0 => '0' | 1 => '1' | 2 => '2' | 3 => '3' | 4 => '4'
  | 5 => '5' | 6 => '6' | 7 => '7' | 8 => '8' | 9 => '9'
  | 10 => 'a' | 11 => 'b' | 12 => 'c' | 13 => 'd' | 14 => 'e'
  | _ => 'f'

/-- Quote character chosen by Python `repr`: single quotes unless the string
contains a single quote and no double quote. -/
def quoteOf (s : Str) : Char :=
  if s.contains chApos && !(s.contains chQuote) then chQuote else chApos

/-- Escaping of one character inside a `repr` literal with quote `q`.
Python escapes the backslash, the active quote, newline, carriage return and
tab, renders other C0 controls and DEL as `\xNN`, and keeps the rest
literal.  (Non-ASCII non-printable code points, which Python would also
escape, are kept literal here; no claim depends on them.) -/
def escChar (q : Char) (c : Char) : Str :=
  if c = '\\' then ['\\', '\\']
  else if c = q then ['\\', q]
  else if c = '\n' then ['\\', 'n']
  else if c = '\r' then ['\\', 'r']
  else if c = '\t' then ['\\', 't']
  else if c.toNat < 32 || c.toNat = 127 then
    ['\\', 'x', hexDig (c.toNat / 16), hexDig (c.toNat % 16)]
  else [c]

/-- Python `repr` of a string. -/
def pyRepr (s : Str) : Str :=
  let q := quoteOf s
  q :: (s.map (escChar q)).flatten ++ [q]

/-- Value of a lower-case hex digit character. -/
def decodeHexDig (c : Char) : Option Nat :=
  if 48 ≤ c.toNat && c.toNat ≤ 57 then some (c.toNat - 48)
  else if 97 ≤ c.toNat && c.toNat ≤ 102 then some (c.toNat - 87)
  else none

/-- Decoding of a one-letter escape inside a literal quoted with `q`. -/
def decodeSimpleEsc (q e : Char) : Option Char :=
  if e = '\\' then some '\\'
  else if e = 'n' then some '\n'
  else if e = 'r' then some '\r'
  else if e = 't' then some '\t'
  else if e = q then some q
  else none

/-- Body of a quoted literal: decode escapes until the closing quote, which
must be the final character. -/
def parseBody (q : Char) : Str → Option Str
  | [] => none
  | [c] => if c = q then some [] else none
  | c :: d :: rest =>
    if c = '\\' then
      if d = 'x' then
        match rest with
        | h1 :: h2 :: rest2 => do
          let a ← decodeHexDig h1
          let b ← decodeHexDig h2
          let s ← parseBody q rest2
          some (Char.ofNat (16 * a + b) :: s)
        | _ => none
      else
        match decodeSimpleEsc q d with
        | some c2 => (parseBody q rest).map (c2 :: ·)
        | none => none
    else if c = q then none
    else (parseBody q (d :: rest)).map (c :: ·)

/-- Inverse of `pyRepr`: Python's evaluation of a string literal in the
grammar that `pyRepr` emits. -/
def pyReprParse (t : Str) : Option Str :=
  match t with
  | q :: rest => if q = chApos || q = chQuote then parseBody q rest else none
  | [] => none

/-! ### Store serialization and loading

src/bib2py.py lines 147-156 serialize the sorted store; `load_templates_dict`
(lines 36-42) loads the file back by executing it as Python.  The loader
below is the evaluation of that generated grammar: it accepts exactly the
line shapes the regenerator emits and yields the same dictionary Python
would; inputs on which Python evaluation would fail or change a key (quotes,
backslashes or newlines interpolated raw into a key or field-name position)
are rejected. -/

/-- Key/venue/field-name strings that are interpolated into the store file
without escaping survive Python evaluation verbatim exactly when they contain
no quote, backslash or line break. -/
def safeStr (s : Str) : Bool :=
  s.all (fun c => !(c = chQuote || c = '\\' || c = '\n' || c = '\r'))

def safeItem (it : TplItem) : Bool :=
  safeStr it.1.1 && safeStr it.1.2 && it.2.all (fun kv => safeStr kv.1)

def safeStore (store : Store) : Bool := store.all safeItem

/-- The lines of one template block, src/bib2py.py lines 149-154. -/
def blockLines (it : TplItem) : List Str :=
  (str "    (" ++ chQuote :: it.1.1 ++ chQuote :: str ", " ++ chQuote :: it.1.2
      ++ chQuote :: str "): " ++ [chLB])
  :: it.2.map (fun kv =>
      str "        " ++ chQuote :: kv.1 ++ chQuote :: str ": "
        ++ pyRepr (cleanVal kv.2) ++ [','])
  ++ [str "    " ++ [chRB, ','], []]

/-- All lines of the regenerated store file (src/bib2py.py lines 147-155). -/
def templateFileLines (items : List TplItem) : List Str :=
  (str "TEMPLATES = " ++ [chLB]) :: (items.map blockLines).flatten ++ [[chRB]]

/-- The exact text written to the destination (src/bib2py.py line 156):
sorted items rendered and joined with newlines. -/
def regenerateContent (store : Store) : Str :=
  match templateFileLines (exportStore store) with
  | [] => []
  | l :: ls => l ++ (ls.map (fun x => '\n' :: x)).flatten

/-- `"\n".flatten`. -/
def joinNL (ls : List Str) : Str :=
  match ls with
  | [] => []
  | l :: rest => l ++ (rest.map (fun x => '\n' :: x)).flatten

/-- Split text on newline characters (inverse of `joinNL` for newline-free
lines). -/
def splitNL : Str → List Str
  | [] => [[]]
  | c :: rest =>
    if c = '\n' then [] :: splitNL rest
    else
      match splitNL rest with
      | l :: ls => (c :: l) :: ls
      | [] => [[c]]

/-- Expect a literal piece of text at the head of `s`. -/
def expectLit (p s : Str) : Option Str :=
  if s.take p.length = p then some (s.drop p.length) else none

def notQuote (c : Char) : Bool := !(c = chQuote)

/-- Evaluation of a template key line `    ("V", "Y"): {`. -/
def parseKeyLine (l : Str) : Option (Str × Str) := do
  let r1 ← expectLit (str "    (" ++ [chQuote]) l
  let v := r1.takeWhile notQuote
  let r2 ← expectLit (chQuote :: str ", " ++ [chQuote]) (r1.dropWhile notQuote)
  let y := r2.takeWhile notQuote
  let r3 ← expectLit (chQuote :: str "): " ++ [chLB]) (r2.dropWhile notQuote)
  if r3.isEmpty && safeStr v && safeStr y then some (v, y) else none

/-- Evaluation of a field line `        "k": <repr literal>,`. -/
def parseFieldLine (l : Str) : Option (Str × Str) := do
  let r1 ← expectLit (str "        " ++ [chQuote]) l
  let k := r1.takeWhile notQuote
  let r2 ← expectLit (chQuote :: str ": ") (r1.dropWhile notQuote)
  match r2.reverse with
  | c :: revTok =>
    if c = ',' && safeStr k then do
      let v ← pyReprParse revTok.reverse
      some (k, v)
    else none
  | [] => none

/-- Field lines of one block, up to and including the closing `    },`. -/
def parseFields : List Str → Option (List (Str × Str) × List Str)
  | [] => none
  | l :: rest =>
    if l = str "    " ++ [chRB, ','] then some ([], rest)
    else do
      let kv ← parseFieldLine l
      let (fs, rem) ← parseFields rest
      some (kv :: fs, rem)

/-- Template blocks followed by the closing `}` line.  The fuel argument
bounds the number of blocks; `parseBlocks lines.length lines` is total. -/
def parseBlocks : Nat → List Str → Option Store
  | _, [] => none
  | fuel, l :: rest =>
    if l = [chRB] then (if rest.isEmpty then some [] else none)
    else
      match fuel with
      | 0 => none
      | Nat.succ fuel => do
        let key ← parseKeyLine l
        let (fields, rem) ← parseFields rest
        match rem with
        | blank :: rem2 =>
          if blank = ([] : Str) then do
            let tl ← parseBlocks fuel rem2
            some ((key, fields) :: tl)
          else none
        | [] => none

/-- `load_templates_dict` on the regenerated grammar: the dictionary Python
obtains by executing the store file. -/
def loadTemplates (text : Str) : Option Store :=
  match splitNL text with
  | l :: rest =>
    if l = str "TEMPLATES = " ++ [chLB] then parseBlocks rest.length rest else none
  | [] => none

/-- A store with every field value passed through the serializer's
whitespace normalization. -/
def cleanItem (it : TplItem) : TplItem :=
  (it.1, it.2.map (fun kv => (kv.1, cleanVal kv.2)))

def cleanStore (store : Store) : Store := store.map cleanItem

/-! ### The regenerator's I/O trace -/

/-- A file-system event of the straight-line update branch. -/
inductive FsEvent where
  | readF (path : Str)
  | writeF (path : Str) (content : Str)
deriving DecidableEq

/-- src/bib2py.py line 139: `templates_path.with_suffix(templates_path.suffix
+ ".bak")` replaces the final suffix with itself plus `.bak`, i.e. appends
`.bak` to the path. -/
def backupPath (p : Str) : Str := p ++ str ".bak"

/-- The ordered I/O trace of the update branch, src/bib2py.py lines 136-156:
read the destination, write its content to the backup path, then overwrite
the destination with the regenerated text. -/
def regenerateEvents (tplPath : Str) (prevContent : Str) (store : Store) : List FsEvent :=
  [FsEvent.readF tplPath,
   FsEvent.writeF (backupPath tplPath) prevContent,
   FsEvent.writeF tplPath (regenerateContent store)]

/-- Does an event mutate the file at `p`? -/
def isWriteTo (p : Str) : FsEvent → Bool
  | FsEvent.writeF q _ => q == p
  | FsEvent.readF _ => false

/-! ### The patch applier (src/completer.py lines 152-173)

Pass 2 streams the raw lines, copies each one verbatim, and runs
`re.search(r"@\w+\s*\{\s*([^,]+),", line)` on it.  `re.search` tries the
pattern at every position from the left; the earliest position that admits a
match wins. -/

/-- Python `\w` (ASCII fragment: letters, digits, underscore; the sources
only contain ASCII identifiers). -/
def wordChar (c : Char) : Bool := c.isAlphanum || c = '_'

/-- Python `\s` (ASCII fragment: space, tab, newline, carriage return,
vertical tab, form feed). -/
def isSpaceRE (c : Char) : Bool :=
  c = ' ' || c = '\t' || c = '\n' || c = '\r' || c.toNat = 11 || c.toNat = 12

/-- Attempt to match `@\w+\s*\{\s*([^,]+),` anchored at the head of `s`,
returning the capture group.  `\w+` and the following `\s*` are forced (the
character classes are disjoint from `{`); for `\s*([^,]+),` the regex engine
takes the maximal whitespace prefix that still leaves the bracket content
non-empty, then everything up to the first comma is captured. -/
def matchAt (s : Str) : Option Str :=
  match s with
  | c :: rest =>
    if c = '@' then
      let w := rest.takeWhile wordChar
      if w.isEmpty then none
      else
        match (rest.drop w.length).dropWhile isSpaceRE with
        | b :: r2 =>
          if b = chLB then
            let pre := r2.takeWhile (fun d => !(d = ','))
            if pre.isEmpty then none
            else
              match r2.drop pre.length with
              | d :: _ =>
                if d = ',' then
                  let ws := (pre.takeWhile isSpaceRE).length
                  some (pre.drop (min ws (pre.length - 1)))
                else none
              | [] => none
          else none
        | [] => none
    else none
  | [] => none

/-- `re.search`: first position (leftmost) at which the pattern matches. -/
def findHeaderId : Str → Option Str
  | [] => none
  | c :: rest =>
    match matchAt (c :: rest) with
    | some g => some g
    | none => findHeaderId rest

/-- src/completer.py line 164: `current_id = match.group(1).strip()` when the
search succeeds. -/
def matchedId (line : Str) : Option Str := (findHeaderId line).map pstrip

/-- Pad with spaces on the right to width `n` (Python format `{key:<12}`). -/
def padRight (s : Str) (n : Nat) : Str := s ++ List.replicate (n - s.length) ' '

/-- src/completer.py line 170: `f"  {key:<12} = {{{val}}},\n"`. -/
def renderPatchLine (k v : Str) : Str :=
  str "  " ++ padRight k 12 ++ str " = " ++ chLB :: v ++ [chRB, ',', '\n']

/-- The pending patch map: entry identifier to ordered field map. -/
abbrev PatchMap := Dict Str (Dict Str Str)

/-- One element of the applier's annotated output: a copied original line, or
one line inserted for field `field` of the patch of `id`. -/
inductive OutItem where
  | orig (line : Str)
  | ins (id field value : Str)
deriving DecidableEq

/-- The text a produced item contributes to the output file. -/
def OutItem.render : OutItem → Str
  | OutItem.orig l => l
  | OutItem.ins _ k v => renderPatchLine k v

/-- The original line an item copies, if it is a copy. -/
def OutItem.origOf : OutItem → Option Str
  | OutItem.orig l => some l
  | OutItem.ins _ _ _ => none

/-- Is this an insertion on behalf of identifier `id`? -/
def OutItem.isInsOf (id : Str) : OutItem → Bool
  | OutItem.ins id' _ _ => id' == id
  | OutItem.orig _ => false

/-- The loop of src/completer.py lines 158-172, instrumented: each written
line is tagged as a verbatim copy or as an insertion.  A line is copied, and
if the header search finds an identifier with a pending patch, one line per
patched field is written directly after it and the identifier is deleted
from the pending map. -/
def applyAnn : List Str → PatchMap → List OutItem × PatchMap
  | [], p => ([], p)
  | l :: ls, p =>
    match matchedId l with
    | some id =>
      match dlookup id p with
      | some fields =>
        let r := applyAnn ls (derase id p)
        (OutItem.orig l :: fields.map (fun kv => OutItem.ins id kv.1 kv.2) ++ r.1, r.2)
      | none =>
        let r := applyAnn ls p
        (OutItem.orig l :: r.1, r.2)
    | none =>
      let r := applyAnn ls p
      (OutItem.orig l :: r.1, r.2)

/-- The applier as the code observes it: the sequence of lines written to the
output file, plus the pending patches left over at end of file (which
src/completer.py simply drops). -/
def applyLines (lines : List Str) (p : PatchMap) : List Str × PatchMap :=
  let r := applyAnn lines p
  (r.1.map OutItem.render, r.2)

/-- Index of the first line on which the header search yields `id`. -/
def firstMatchIdx (lines : List Str) (id : Str) : Option Nat :=
  lines.findIdx? (fun l => matchedId l == some id)

/-- Total number of patched fields in a pending map. -/
def psize (p : PatchMap) : Nat := (p.map (fun kv => kv.2.length)).sum

/-! ### Pass 1 of the completer and the per-run effects -/

/-- Accumulated result of the analysis pass, src/completer.py lines 40-87. -/
structure Pass1Out where
  patches : PatchMap
  conflicts : Dict Str (List (Str × Str × Str))
  missing : Dict (Str × Str) (Str × Str)
deriving DecidableEq

/-- One iteration of the entry loop, src/completer.py lines 46-87. -/
def processEntry (templates : Store) (acc : Pass1Out) (entry : Entry) : Pass1Out :=
  let entryId := (dlookup (str "ID") entry).getD []
  let year := dlookup (str "year") entry
  let venueRaw := pyOr (dlookup (str "booktitle") entry) (dlookup (str "journal") entry)
  if !truthy year || !truthy venueRaw then
    let key := (normalize_text (venueRaw.getD []), normalize_text (year.getD []))
    { acc with missing := dsetdefault key (venueRaw.getD [], year.getD []) acc.missing }
  else
    let cv := normalize_text (venueRaw.getD [])
    let cy := normalize_text (year.getD [])
    match findTemplate templates cv cy with
    | none =>
      { acc with missing := dsetdefault (cv, cy) (venueRaw.getD [], year.getD []) acc.missing }
    | some tpl =>
      let m := completionMerge entry tpl
      let acc1 :=
        if !m.patch.isEmpty then { acc with patches := dinsert entryId m.patch acc.patches }
        else acc
      if !m.conflicts.isEmpty then { acc1 with conflicts := dinsert entryId m.conflicts acc1.conflicts }
      else acc1

/-- The whole analysis pass. -/
def pass1 (templates : Store) (entries : List Entry) : Pass1Out :=
  entries.foldl (processEntry templates) ⟨[], [], []⟩

/-- The per-entry missing-template record, as a projection of one loop
iteration: the (normalized key, raw pair) the entry passes to `setdefault`,
if any (src/completer.py lines 51-54 and 69-71). -/
def missingContribution (templates : Store) (entry : Entry) : Option ((Str × Str) × (Str × Str)) :=
  let year := dlookup (str "year") entry
  let venueRaw := pyOr (dlookup (str "booktitle") entry) (dlookup (str "journal") entry)
  if !truthy year || !truthy venueRaw then
    some ((normalize_text (venueRaw.getD []), normalize_text (year.getD [])),
          (venueRaw.getD [], year.getD []))
  else
    let cv := normalize_text (venueRaw.getD [])
    let cy := normalize_text (year.getD [])
    match findTemplate templates cv cy with
    | none => some ((cv, cy), (venueRaw.getD [], year.getD []))
    | some _ => none

/-- `Path(input_path).name`: the final path component. -/
def baseName (p : Str) : Str := (p.reverse.takeWhile (fun c => !(c = '/'))).reverse

/-- `pathlib` `/` on the conventions the completer uses (`Path(".") / name`
collapses to `name`). -/
def pathJoin (d n : Str) : Str := if d = str "." then n else d ++ '/' :: n

/-- src/completer.py line 96. -/
def missingLogPath (logDir inputPath : Str) : Str :=
  pathJoin logDir (baseName inputPath ++ str ".missing_templates.txt")

/-- src/completer.py line 95. -/
def conflictLogPath (logDir inputPath : Str) : Str :=
  pathJoin logDir (baseName inputPath ++ str ".conflicts.txt")

/-- src/completer.py lines 99-104: one tab-separated row per conflict triple,
grouped by entry in record order. -/
def conflictRowsOf (c : Dict Str (List (Str × Str × Str))) : List Str :=
  (c.map (fun ekv => ekv.2.map (fun t =>
    ekv.1 ++ '\t' :: t.1 ++ '\t' :: str "EXISTING=" ++ t.2.1
      ++ '\t' :: str "TEMPLATE=" ++ t.2.2))).flatten

/-- src/completer.py lines 106-108: `f"{venue_raw}\t{year}"` per stored
first-seen raw pair, in insertion order of the deduplicating dict. -/
def missingRowsOf (m : Dict (Str × Str) (Str × Str)) : List Str :=
  m.map (fun kv => kv.2.1 ++ '\t' :: kv.2.2)

/-- `_write_log`, src/completer.py lines 19-23: header, then the rows (or the
single row `(none)`), joined with newlines, plus a trailing newline. -/
def writeLogContent (header : Str) (rows : List Str) : Str :=
  joinNL (header :: (if rows.isEmpty then [str "(none)"] else rows)) ++ ['\n']

/-- The observable file writes of one `main` invocation. -/
structure RunOut where
  written : List (Str × Str)
deriving DecidableEq

/-- The file-write effects of `main`, src/completer.py lines 26-174, as a
function of the parsed entries, the raw lines and the flags: in dry-run mode
the two logs are written and the function returns; otherwise pass 2 writes
only the patched output file.  Console output is not modelled. -/
def completerRun (templates : Store) (entries : List Entry) (rawLines : List Str)
    (inputPath outputPath : Str) (dryRun : Bool) (logDir : Str) : RunOut :=
  let p1 := pass1 templates entries
  if dryRun then
    { written :=
        [(conflictLogPath logDir inputPath,
          writeLogContent (str "conflicts: entry_id\tfield\texisting\ttemplate")
            (conflictRowsOf p1.conflicts)),
         (missingLogPath logDir inputPath,
          writeLogContent (str "missing templates: venue\tyear")
            (missingRowsOf p1.missing))] }
  else
    { written := [(outputPath, ((applyLines rawLines p1.patches).1).flatten)] }

/-- The step function of `ingestionMerge`. -/
def ingStep (acc : IMergeOut) (kv : Str × Str) : IMergeOut :=
  match dlookup kv.1 acc.merged with
  | none => ⟨dinsert kv.1 kv.2 acc.merged, acc.missingFields ++ [kv.1], acc.differingFields⟩
  | some cur =>
    if normalize_text cur = normalize_text kv.2 then acc
    else ⟨dinsert kv.1 kv.2 acc.merged, acc.missingFields, acc.differingFields ++ [kv.1]⟩

/-! ## Dictionary lemmas -/

@[simp] theorem dlookup_nil {α β : Type} [BEq α] (k : α) :
    dlookup k ([] : Dict α β) = none := rfl

theorem dlookup_cons {α β : Type} [BEq α] (k : α) (p : α × β) (d : Dict α β) :
    dlookup k (p :: d) = if p.1 == k then some p.2 else dlookup k d := by
  simp only [dlookup, List.find?_cons]
  cases h : (p.1 == k) <;> simp [h]

theorem dlookup_cons_self {α β : Type} [BEq α] [LawfulBEq α] (k : α) (v : β) (d : Dict α β) :
    dlookup k ((k, v) :: d) = some v := by
  rw [dlookup_cons]
  simp

theorem dlookup_cons_ne {α β : Type} [BEq α] [LawfulBEq α] (k : α) (p : α × β) (d : Dict α β)
    (h : ¬(p.1 = k)) : dlookup k (p :: d) = dlookup k d := by
  rw [dlookup_cons, if_neg]
  simp [h]

theorem dlookup_append {α β : Type} [BEq α] (k : α) (d₁ d₂ : Dict α β) :
    dlookup k (d₁ ++ d₂) = ((dlookup k d₁).orElse (fun _ => dlookup k d₂)) := by
  induction d₁ with
  | nil => simp
  | cons p d ih =>
    rw [List.cons_append, dlookup_cons, dlookup_cons]
    cases h : (p.1 == k) <;> simp [h, ih]

theorem dlookup_eq_none_iff {α β : Type} [BEq α] [LawfulBEq α] (k : α) (d : Dict α β) :
    dlookup k d = none ↔ ∀ p ∈ d, ¬(p.1 = k) := by
  simp only [dlookup, Option.map_eq_none', List.find?_eq_none, beq_iff_eq]

theorem dlookup_derase_self {α β : Type} [BEq α] [LawfulBEq α] (k : α) (d : Dict α β) :
    dlookup k (derase k d) = none := by
  rw [dlookup_eq_none_iff]
  intro p hp heq
  simp only [derase, List.mem_filter] at hp
  simp [heq] at hp

theorem derase_cons {α β : Type} [BEq α] (k : α) (p : α × β) (d : Dict α β) :
    derase k (p :: d) = if p.1 == k then derase k d else p :: derase k d := by
  simp only [derase, List.filter_cons]
  cases h : (p.1 == k) <;> simp [h]

theorem dlookup_derase_ne {α β : Type} [BEq α] [LawfulBEq α] (k k' : α) (d : Dict α β)
    (h : ¬(k = k')) : dlookup k (derase k' d) = dlookup k d := by
  induction d with
  | nil => rfl
  | cons p d ih =>
    rw [derase_cons]
    by_cases hpk : p.1 = k'
    · rw [if_pos (by simp [hpk]), ih, dlookup_cons_ne]
      intro hc
      exact h (hc ▸ hpk)
    · rw [if_neg (by simp [hpk]), dlookup_cons, dlookup_cons, ih]

theorem derase_sublist {α β : Type} [BEq α] (k : α) (d : Dict α β) :
    (derase k d).Sublist d :=
  List.filter_sublist d

theorem dmem_eq_false {α β : Type} [BEq α] (k : α) (d : Dict α β)
    (h : dlookup k d = none) : dmem k d = false := by
  simp [dmem, h]

theorem dmem_eq_true {α β : Type} [BEq α] (k : α) (d : Dict α β) (v : β)
    (h : dlookup k d = some v) : dmem k d = true := by
  simp [dmem, h]

theorem dlookup_map_replace {α β : Type} [BEq α] [LawfulBEq α] (k k' : α) (v : β)
    (d : Dict α β) :
    dlookup k (d.map (fun p => if p.1 == k' then (k', v) else p)) =
      if k == k' then (dlookup k d).map (fun _ => v) else dlookup k d := by
  induction d with
  | nil => by_cases h : k = k' <;> simp [h]
  | cons p d ih =>
    by_cases hp : p.1 = k'
    · have hb : (p.1 == k') = true := by simp [hp]
      by_cases h : k = k'
      · subst h
        simp only [List.map_cons, hb, if_true, beq_self_eq_true] at ih ⊢
        rw [dlookup_cons_self, dlookup_cons, if_pos (by simp [hp])]
        simp
      · have h3 : ¬(p.1 = k) := fun hc => h ((hc.symm.trans hp))
        have hbk : (k == k') = false := by simp [h]
        simp only [List.map_cons, hb, if_true, hbk, Bool.false_eq_true, if_false] at ih ⊢
        rw [dlookup_cons_ne _ _ _ (fun hc => h hc.symm), ih,
            dlookup_cons_ne _ _ _ h3]
    · have hb : (p.1 == k') = false := by simp [hp]
      simp only [List.map_cons, hb, Bool.false_eq_true, if_false]
      rw [dlookup_cons, dlookup_cons, ih]
      by_cases hpk : p.1 = k
      · have hkk : ¬(k = k') := fun hc => hp (hpk.trans hc)
        simp [hpk, hkk]
      · simp [hpk]

theorem dlookup_dinsert_self {α β : Type} [BEq α] [LawfulBEq α] (k : α) (v : β) (d : Dict α β) :
    dlookup k (dinsert k v d) = some v := by
  unfold dinsert
  by_cases hm : dmem k d = true
  · rw [if_pos hm, dlookup_map_replace, if_pos (beq_self_eq_true k)]
    simp only [dmem, Option.isSome_iff_exists] at hm
    obtain ⟨v', hv'⟩ := hm
    simp [hv']
  · rw [if_neg hm, dlookup_append]
    simp only [dmem, Option.isSome_iff_exists, not_exists] at hm
    cases hl : dlookup k d with
    | some v' => exact absurd hl (hm v')
    | none => simp [dlookup_cons_self]

theorem dlookup_dinsert_ne {α β : Type} [BEq α] [LawfulBEq α] (k k' : α) (v : β) (d : Dict α β)
    (h : ¬(k = k')) : dlookup k (dinsert k' v d) = dlookup k d := by
  unfold dinsert
  by_cases hm : dmem k' d = true
  · rw [if_pos hm, dlookup_map_replace, if_neg (by simp [h])]
  · rw [if_neg hm, dlookup_append]
    cases hl : dlookup k d with
    | some v' => simp
    | none =>
      have h1 : dlookup k [(k', v)] = none := by
        rw [dlookup_cons_ne _ _ _ (fun hc => h hc.symm)]
        rfl
      simp only [h1]
      rfl

theorem dsetdefault_of_mem {α β : Type} [BEq α] (k : α) (v : β) (d : Dict α β)
    (h : dmem k d = true) : dsetdefault k v d = d := by
  simp [dsetdefault, h]

theorem dsetdefault_of_not_mem {α β : Type} [BEq α] (k : α) (v : β) (d : Dict α β)
    (h : dmem k d = false) : dsetdefault k v d = d ++ [(k, v)] := by
  simp [dsetdefault, h]

theorem dlookup_dsetdefault_self {α β : Type} [BEq α] [LawfulBEq α] (k : α) (v : β)
    (d : Dict α β) (h : dlookup k d = none) : dlookup k (dsetdefault k v d) = some v := by
  rw [dsetdefault_of_not_mem _ _ _ (dmem_eq_false _ _ h), dlookup_append, h]
  simp [dlookup_cons_self]

theorem dlookup_dsetdefault_ne {α β : Type} [BEq α] [LawfulBEq α] (k k' : α) (v : β)
    (d : Dict α β) (h : ¬(k = k')) : dlookup k (dsetdefault k' v d) = dlookup k d := by
  unfold dsetdefault
  by_cases hm : dmem k' d = true
  · rw [if_pos hm]
  · rw [if_neg hm, dlookup_append]
    cases hl : dlookup k d with
    | some v' => simp
    | none =>
      have h1 : dlookup k [(k', v)] = none := by
        rw [dlookup_cons_ne _ _ _ (fun hc => h hc.symm)]
        rfl
      simp only [h1]
      rfl

theorem nodup_dkeys_dsetdefault {α β : Type} [BEq α] [LawfulBEq α] (k : α) (v : β)
    (d : Dict α β) (h : (dkeys d).Nodup) (hm : dmem k d = false) :
    (dkeys (dsetdefault k v d)).Nodup := by
  rw [dsetdefault_of_not_mem _ _ _ hm]
  simp only [dkeys, List.map_append, List.map_cons, List.map_nil]
  rw [List.nodup_append]
  refine ⟨h, List.nodup_singleton _, ?_⟩
  intro a ha hb
  simp only [List.mem_singleton] at hb
  simp only [List.mem_map] at ha
  obtain ⟨p, hp, hpk⟩ := ha
  have hnone : dlookup k d = none := by
    cases hl : dlookup k d with
    | none => rfl
    | some v' => rw [dmem, hl] at hm; simp at hm
  rw [dlookup_eq_none_iff] at hnone
  exact hnone p hp (hpk.trans hb)

/-! ## Merge lemmas -/

@[simp] theorem dkeys_cons {α β : Type} (p : α × β) (d : Dict α β) :
    dkeys (p :: d) = p.1 :: dkeys d := rfl

theorem dlookup_filter_key {β : Type} (pr : Str → Bool) (k : Str) (d : Dict Str β) :
    dlookup k (d.filter (fun kv => pr kv.1)) = if pr k then dlookup k d else none := by
  induction d with
  | nil => cases h : pr k <;> simp [h]
  | cons p d ih =>
    rw [List.filter_cons]
    by_cases hpk : p.1 = k
    · subst hpk
      cases h : pr p.1 <;> simp [h, ih, dlookup_cons]
    · cases h : pr p.1 <;> simp [h, ih, dlookup_cons, hpk]

/-- Field lookup in the filtered entry: excluded keys vanish, others are
looked up in the entry itself. -/
theorem dlookup_metaOf (k : Str) (entry : Entry) :
    dlookup k (metaOf entry) =
      if EXCLUDED_KEYS.contains k then none else dlookup k entry := by
  unfold metaOf
  rw [dlookup_filter_key (fun x => !(EXCLUDED_KEYS.contains x)) k entry]
  cases h : EXCLUDED_KEYS.contains k <;> simp [h]

theorem metaOf_keys_not_excluded (entry : Entry) (kv : Str × Str)
    (h : kv ∈ metaOf entry) : EXCLUDED_KEYS.contains kv.1 = false := by
  unfold metaOf at h
  rw [List.mem_filter] at h
  simpa using h.2

/-- Closed form of the completion merge: the patch is exactly the template
fields absent from the entry, in template order, and the conflicts are
exactly the present fields whose normalized values differ. -/
theorem completionMerge_eq (entry : Entry) (tpl : Dict Str Str) :
    completionMerge entry tpl =
      ⟨tpl.filter (fun kv => (dlookup kv.1 entry).isNone),
       tpl.filterMap (fun kv =>
         match dlookup kv.1 entry with
         | none => none
         | some ev =>
           if normalize_text ev = normalize_text kv.2 then none
           else some (kv.1, ev, kv.2))⟩ := by
  have go : ∀ (tpl : Dict Str Str) (acc : CMergeOut),
      tpl.foldl
        (fun acc kv =>
          match dlookup kv.1 entry with
          | none => ⟨acc.patch ++ [kv], acc.conflicts⟩
          | some ev =>
            if normalize_text ev = normalize_text kv.2 then acc
            else ⟨acc.patch, acc.conflicts ++ [(kv.1, ev, kv.2)]⟩)
        acc =
      ⟨acc.patch ++ tpl.filter (fun kv => (dlookup kv.1 entry).isNone),
       acc.conflicts ++ tpl.filterMap (fun kv =>
         match dlookup kv.1 entry with
         | none => none
         | some ev =>
           if normalize_text ev = normalize_text kv.2 then none
           else some (kv.1, ev, kv.2))⟩ := by
    intro tpl
    induction tpl with
    | nil => intro acc; simp
    | cons kv tpl ih =>
      intro acc
      rw [List.foldl_cons, ih, List.filter_cons, List.filterMap_cons]
      cases hl : dlookup kv.1 entry with
      | none => simp
      | some ev =>
        by_cases hn : normalize_text ev = normalize_text kv.2
        · simp [hn]
        · simp [hn]
  unfold completionMerge
  rw [go tpl ⟨[], []⟩]
  simp

theorem completionMerge_patch_lookup_none (entry : Entry) (tpl : Dict Str Str) (f : Str)
    (h : (dlookup f entry).isSome = true) :
    dlookup f (completionMerge entry tpl).patch = none := by
  rw [completionMerge_eq]
  rw [dlookup_eq_none_iff]
  intro p hp heq
  simp only [List.mem_filter] at hp
  rw [heq] at hp
  rw [Option.isNone_iff_eq_none] at hp
  rw [hp.2] at h
  simp at h

theorem completionMerge_conflict_keys (entry : Entry) (tpl : Dict Str Str)
    (c : Str × Str × Str) (h : c ∈ (completionMerge entry tpl).conflicts) :
    ∃ kv ∈ tpl, c.1 = kv.1 := by
  rw [completionMerge_eq] at h
  simp only [List.mem_filterMap] at h
  obtain ⟨kv, hkv, hc⟩ := h
  refine ⟨kv, hkv, ?_⟩
  split at hc
  · exact absurd hc (by simp)
  · split at hc
    · exact absurd hc (by simp)
    · cases hc
      rfl

/-! ## Ingestion merge lemmas

The recursion of `ingestionMerge` is analysed through its `foldl`; the
definition below names the step function (it is definitionally the lambda
inside `ingestionMerge`). -/

theorem ingestionMerge_eq_foldl (tpl meta : Dict Str Str) :
    ingestionMerge tpl meta = meta.foldl ingStep ⟨tpl, [], []⟩ := rfl

theorem ingStep_missingFields (acc : IMergeOut) (kv : Str × Str) :
    (ingStep acc kv).missingFields = acc.missingFields ∨
      (ingStep acc kv).missingFields = acc.missingFields ++ [kv.1] := by
  unfold ingStep
  split
  · exact Or.inr rfl
  · split
    · exact Or.inl rfl
    · exact Or.inl rfl

theorem ingStep_differingFields (acc : IMergeOut) (kv : Str × Str) :
    (ingStep acc kv).differingFields = acc.differingFields ∨
      (ingStep acc kv).differingFields = acc.differingFields ++ [kv.1] := by
  unfold ingStep
  split
  · exact Or.inl rfl
  · split
    · exact Or.inl rfl
    · exact Or.inr rfl

theorem ingStep_differing_sublist (acc : IMergeOut) (kv : Str × Str) :
    acc.differingFields.Sublist (ingStep acc kv).differingFields := by
  rcases ingStep_differingFields acc kv with h | h <;> simp [h]

theorem ingStep_merged_lookup_ne (acc : IMergeOut) (kv : Str × Str) (f : Str)
    (h : ¬(kv.1 = f)) :
    dlookup f (ingStep acc kv).merged = dlookup f acc.merged := by
  unfold ingStep
  split
  · exact dlookup_dinsert_ne f kv.1 kv.2 acc.merged (fun hc => h hc.symm)
  · split
    · rfl
    · exact dlookup_dinsert_ne f kv.1 kv.2 acc.merged (fun hc => h hc.symm)

/-- Processing fields other than `f` does not change what the merged map
stores at `f`. -/
theorem ingFold_merged_lookup_of_not_key (meta : Dict Str Str) (acc : IMergeOut) (f : Str)
    (h : ∀ kv ∈ meta, ¬(kv.1 = f)) :
    dlookup f (meta.foldl ingStep acc).merged = dlookup f acc.merged := by
  induction meta generalizing acc with
  | nil => rfl
  | cons kv meta ih =>
    rw [List.foldl_cons, ih _ (fun p hp => h p (List.mem_cons_of_mem kv hp))]
    exact ingStep_merged_lookup_ne acc kv f (h kv (List.mem_cons_self kv meta))

/-- Every field name the fold adds to `missingFields` or `differingFields`
is a key of the processed list. -/
theorem ingFold_fields_subset (meta : Dict Str Str) (acc : IMergeOut) (f : Str) :
    (f ∈ (meta.foldl ingStep acc).missingFields →
       f ∈ acc.missingFields ∨ f ∈ dkeys meta) ∧
    (f ∈ (meta.foldl ingStep acc).differingFields →
       f ∈ acc.differingFields ∨ f ∈ dkeys meta) := by
  induction meta generalizing acc with
  | nil => exact ⟨fun h => Or.inl h, fun h => Or.inl h⟩
  | cons kv meta ih =>
    rw [List.foldl_cons]
    constructor
    · intro h
      rcases (ih (ingStep acc kv)).1 h with h1 | h1
      · rcases ingStep_missingFields acc kv with h2 | h2 <;> rw [h2] at h1
        · exact Or.inl h1
        · rcases List.mem_append.mp h1 with h3 | h3
          · exact Or.inl h3
          · have h4 : f = kv.1 := by simpa using h3
            exact Or.inr (by rw [dkeys_cons, h4]; exact List.mem_cons_self _ _)
      · exact Or.inr (by rw [dkeys_cons]; exact List.mem_cons_of_mem _ h1)
    · intro h
      rcases (ih (ingStep acc kv)).2 h with h1 | h1
      · rcases ingStep_differingFields acc kv with h2 | h2 <;> rw [h2] at h1
        · exact Or.inl h1
        · rcases List.mem_append.mp h1 with h3 | h3
          · exact Or.inl h3
          · have h4 : f = kv.1 := by simpa using h3
            exact Or.inr (by rw [dkeys_cons, h4]; exact List.mem_cons_self _ _)
      · exact Or.inr (by rw [dkeys_cons]; exact List.mem_cons_of_mem _ h1)

/-- The differing-fields list only ever grows along the fold. -/
theorem ingFold_differing_sublist (meta : Dict Str Str) (acc : IMergeOut) :
    acc.differingFields.Sublist ((meta.foldl ingStep acc).differingFields) := by
  induction meta generalizing acc with
  | nil => exact List.Sublist.refl _
  | cons kv meta ih =>
    rw [List.foldl_cons]
    exact (ingStep_differing_sublist acc kv).trans (ih (ingStep acc kv))

/-- Splitting a successful lookup: the dictionary decomposes at the first
occurrence of the key. -/
theorem dlookup_some_split {β : Type} (f : Str) (d : Dict Str β) (v : β)
    (h : dlookup f d = some v) :
    ∃ pre post, d = pre ++ (f, v) :: post ∧ ∀ kv ∈ pre, ¬(kv.1 = f) := by
  induction d with
  | nil => simp at h
  | cons p d ih =>
    by_cases hp : p.1 = f
    · rw [dlookup_cons, if_pos (by simp [hp])] at h
      cases h
      refine ⟨[], d, ?_, by simp⟩
      rw [List.nil_append]
      have : p = (f, p.2) := by
        cases p
        simp only [Prod.mk.injEq]
        exact ⟨hp, trivial⟩
      rw [this]
    · rw [dlookup_cons_ne _ _ _ hp] at h
      obtain ⟨pre, post, hd, hpre⟩ := ih h
      refine ⟨p :: pre, post, by rw [hd]; rfl, ?_⟩
      intro kv hkv
      rcases List.mem_cons.mp hkv with h1 | h1
      · rw [h1]; exact hp
      · exact hpre kv h1

/-- With unique keys, everything after the first occurrence avoids the key. -/
theorem nodup_post_not_key {β : Type} (f : Str) (v : β) (pre post : Dict Str β)
    (h : (dkeys (pre ++ (f, v) :: post)).Nodup) : ∀ kv ∈ post, ¬(kv.1 = f) := by
  intro kv hkv heq
  simp only [dkeys, List.map_append, List.map_cons, List.nodup_append] at h
  have h2 := h.2.1
  rw [List.nodup_cons] at h2
  exact h2.1 (by rw [List.mem_map]; exact ⟨kv, hkv, heq⟩)

/-- One step of the ingestion fold at a field whose current merged value
normalizes differently: overwrite and record. -/
theorem ingStep_at_differing (acc : IMergeOut) (f ev tv : Str)
    (hl : dlookup f acc.merged = some tv)
    (hne : ¬(normalize_text tv = normalize_text ev)) :
    ingStep acc (f, ev) =
      ⟨dinsert f ev acc.merged, acc.missingFields, acc.differingFields ++ [f]⟩ := by
  unfold ingStep
  split
  next heq =>
    have heq2 : dlookup f acc.merged = none := heq
    rw [hl] at heq2
    simp at heq2
  next cur heq =>
    have heq2 : dlookup f acc.merged = some cur := heq
    rw [hl] at heq2
    have hcur := Option.some.inj heq2
    subst hcur
    simp [hne]

/-- The heart of C5, ingestion side: a field present in both the template
and the filtered entry with differing normalized values ends up holding the
entry's raw value after the merge, and is reported in `differingFields`. -/
theorem ingestionMerge_differing (tpl meta : Dict Str Str) (f ev tv : Str)
    (hmeta : dlookup f meta = some ev)
    (hnodup : (dkeys meta).Nodup)
    (htpl : dlookup f tpl = some tv)
    (hne : ¬(normalize_text tv = normalize_text ev)) :
    dlookup f (ingestionMerge tpl meta).merged = some ev ∧
      f ∈ (ingestionMerge tpl meta).differingFields := by
  obtain ⟨pre, post, hd, hpre⟩ := dlookup_some_split f meta ev hmeta
  rw [ingestionMerge_eq_foldl, hd, List.foldl_append, List.foldl_cons]
  have hpre1 : dlookup f (pre.foldl ingStep ⟨tpl, [], []⟩).merged = some tv := by
    rw [ingFold_merged_lookup_of_not_key pre _ f hpre]
    exact htpl
  rw [ingStep_at_differing _ f ev tv hpre1 hne]
  have hpost : ∀ kv ∈ post, ¬(kv.1 = f) := by
    apply nodup_post_not_key f ev pre post
    rw [← hd]
    exact hnodup
  constructor
  · rw [ingFold_merged_lookup_of_not_key post _ f hpost]
    exact dlookup_dinsert_self f ev _
  · apply List.Sublist.subset (ingFold_differing_sublist post _)
    simp

/-! ## Ordering lemmas for the export sort -/

theorem strLt_cons (a b : Char) (as bs : Str) :
    strLt (a :: as) (b :: bs) =
      if a.toNat < b.toNat then true
      else if b.toNat < a.toNat then false
      else strLt as bs := rfl

theorem strLt_trans : ∀ (a b c : Str), strLt a b = true → strLt b c = true → strLt a c = true
  | [], b, c, h1, h2 => by
    cases b with
    | nil => simp [strLt] at h1
    | cons bb bs =>
      cases c with
      | nil => simp [strLt] at h2
      | cons cc cs => rfl
  | aa :: as, b, c, h1, h2 => by
    cases b with
    | nil => simp [strLt] at h1
    | cons bb bs =>
      cases c with
      | nil => simp [strLt] at h2
      | cons cc cs =>
        rw [strLt_cons] at h1 h2 ⊢
        by_cases h1a : aa.toNat < bb.toNat
        · by_cases h2a : bb.toNat < cc.toNat
          · rw [if_pos (by omega)]
          · rw [if_neg h2a] at h2
            by_cases h2b : cc.toNat < bb.toNat
            · rw [if_pos h2b] at h2; cases h2
            · rw [if_pos (by omega)]
        · rw [if_neg h1a] at h1
          by_cases h1b : bb.toNat < aa.toNat
          · rw [if_pos h1b] at h1; cases h1
          · rw [if_neg h1b] at h1
            by_cases h2a : bb.toNat < cc.toNat
            · rw [if_pos (by omega)]
            · rw [if_neg h2a] at h2
              by_cases h2b : cc.toNat < bb.toNat
              · rw [if_pos h2b] at h2; cases h2
              · rw [if_neg h2b] at h2
                rw [if_neg (by omega), if_neg (by omega)]
                exact strLt_trans as bs cs h1 h2

theorem strLt_eq_of_not : ∀ (a b : Str), strLt a b = false → strLt b a = false → a = b
  | [], [], _, _ => rfl
  | [], _ :: _, h1, _ => by simp [strLt] at h1
  | _ :: _, [], _, h2 => by simp [strLt] at h2
  | aa :: as, bb :: bs, h1, h2 => by
    rw [strLt_cons] at h1 h2
    by_cases hab : aa.toNat < bb.toNat
    · rw [if_pos hab] at h1; cases h1
    · rw [if_neg hab] at h1
      by_cases hba : bb.toNat < aa.toNat
      · rw [if_pos hba] at h2; cases h2
      · rw [if_neg hba] at h1
        rw [if_neg (by omega), if_neg (by omega)] at h2
        have hn : aa.toNat = bb.toNat := by omega
        have hc : aa = bb := Char.eq_of_val_eq (UInt32.toNat.inj hn)
        rw [hc, strLt_eq_of_not as bs h1 h2]

theorem strLt_false_trans (a b c : Str) (h1 : strLt b a = false) (h2 : strLt c b = false) :
    strLt c a = false := by
  cases h3 : strLt c a with
  | false => rfl
  | true =>
    exfalso
    cases h4 : strLt b c with
    | true =>
      have h5 := strLt_trans b c a h4 h3
      rw [h5] at h1
      cases h1
    | false =>
      have hbc := strLt_eq_of_not b c h4 h2
      rw [hbc, h3] at h1
      cases h1

theorem ltItem_false_trans (a b c : TplItem) (h1 : ltItem b a = false)
    (h2 : ltItem c b = false) : ltItem c a = false := by
  simp only [ltItem] at h1 h2 ⊢
  split_ifs at h1 h2 ⊢ with hc1 hc2 hc3 hc4 hc5 hc6 <;>
    first
      | rfl
      | exact Bool.noConfusion h1
      | exact Bool.noConfusion h2
      | (exact strLt_false_trans _ _ _ h1 h2)
      | (exfalso; omega)

theorem strLt_asymm : ∀ (a b : Str), strLt a b = true → strLt b a = false
  | [], [], h => by simp [strLt] at h
  | [], _ :: _, _ => rfl
  | _ :: _, [], h => by simp [strLt] at h
  | aa :: as, bb :: bs, h => by
    rw [strLt_cons] at h ⊢
    by_cases h1 : aa.toNat < bb.toNat
    · rw [if_neg (by omega), if_pos (by omega)]
    · rw [if_neg h1] at h
      by_cases h2 : bb.toNat < aa.toNat
      · rw [if_pos h2] at h
        exact Bool.noConfusion h
      · rw [if_neg h2] at h
        rw [if_neg (by omega), if_neg (by omega)]
        exact strLt_asymm as bs h

theorem ltItem_asymm (x y : TplItem) (h : ltItem y x = true) : ltItem x y = false := by
  simp only [ltItem] at h ⊢
  split_ifs at h ⊢ with hc1 hc2 hc3 hc4 <;>
    first
      | rfl
      | exact Bool.noConfusion h
      | (exact strLt_asymm _ _ h)
      | (exfalso; omega)

theorem mem_insertSorted (z x : TplItem) (l : List TplItem) :
    z ∈ insertSorted x l ↔ z = x ∨ z ∈ l := by
  induction l with
  | nil => simp [insertSorted]
  | cons y ys ih =>
    rw [insertSorted]
    by_cases hyx : ltItem y x = true
    · rw [if_pos hyx]
      simp only [List.mem_cons, ih]
      tauto
    · rw [if_neg hyx]
      simp [List.mem_cons]

theorem insertSorted_pairwise (x : TplItem) (l : List TplItem)
    (h : l.Pairwise (fun a b => ltItem b a = false)) :
    (insertSorted x l).Pairwise (fun a b => ltItem b a = false) := by
  induction l with
  | nil => simp [insertSorted]
  | cons y ys ih =>
    rw [List.pairwise_cons] at h
    rw [insertSorted]
    by_cases hyx : ltItem y x = true
    · rw [if_pos hyx]
      rw [List.pairwise_cons]
      refine ⟨?_, ih h.2⟩
      intro z hz
      rcases (mem_insertSorted z x ys).mp hz with hz1 | hz1
      · rw [hz1]
        exact ltItem_asymm x y hyx
      · exact h.1 z hz1
    · rw [if_neg hyx]
      simp only [Bool.not_eq_true] at hyx
      rw [List.pairwise_cons]
      constructor
      · intro z hz
        rcases List.mem_cons.mp hz with hz1 | hz1
        · rw [hz1]; exact hyx
        · exact ltItem_false_trans x y z hyx (h.1 z hz1)
      · rw [List.pairwise_cons]
        exact h

theorem exportStore_pairwise (l : List TplItem) :
    (exportStore l).Pairwise (fun a b => ltItem b a = false) := by
  induction l with
  | nil => simp [exportStore]
  | cons x xs ih => exact insertSorted_pairwise x (exportStore xs) ih

theorem insertSorted_perm (x : TplItem) (l : List TplItem) :
    (insertSorted x l).Perm (x :: l) := by
  induction l with
  | nil => exact List.Perm.refl _
  | cons y ys ih =>
    rw [insertSorted]
    by_cases hyx : ltItem y x = true
    · rw [if_pos hyx]
      exact (List.Perm.cons y ih).trans (List.Perm.swap x y ys)
    · rw [if_neg hyx]

theorem exportStore_perm (l : List TplItem) : (exportStore l).Perm l := by
  induction l with
  | nil => exact List.Perm.refl _
  | cons x xs ih =>
    exact (insertSorted_perm x (exportStore xs)).trans (List.Perm.cons x ih)

/-- A list already sorted for the export order is a fixed point of the sort;
this is what makes regeneration idempotent. -/
theorem exportStore_eq_self (l : List TplItem)
    (h : l.Pairwise (fun a b => ltItem b a = false)) : exportStore l = l := by
  induction l with
  | nil => rfl
  | cons x xs ih =>
    rw [List.pairwise_cons] at h
    rw [exportStore, ih h.2]
    cases xs with
    | nil => rfl
    | cons y ys =>
      rw [insertSorted, if_neg]
      rw [h.1 y (List.mem_cons_self y ys)]
      simp

/-! ## Patch applier lemmas -/

theorem applyAnn_nil (p : PatchMap) : applyAnn [] p = ([], p) := rfl

theorem applyAnn_cons_consume (l : Str) (ls : List Str) (p : PatchMap) (id : Str)
    (fields : Dict Str Str) (h1 : matchedId l = some id) (h2 : dlookup id p = some fields) :
    applyAnn (l :: ls) p =
      (OutItem.orig l :: fields.map (fun kv => OutItem.ins id kv.1 kv.2)
         ++ (applyAnn ls (derase id p)).1,
       (applyAnn ls (derase id p)).2) := by
  simp only [applyAnn, h1, h2]

theorem applyAnn_cons_nopatch (l : Str) (ls : List Str) (p : PatchMap) (id : Str)
    (h1 : matchedId l = some id) (h2 : dlookup id p = none) :
    applyAnn (l :: ls) p = (OutItem.orig l :: (applyAnn ls p).1, (applyAnn ls p).2) := by
  simp only [applyAnn, h1, h2]

theorem applyAnn_cons_nomatch (l : Str) (ls : List Str) (p : PatchMap)
    (h1 : matchedId l = none) :
    applyAnn (l :: ls) p = (OutItem.orig l :: (applyAnn ls p).1, (applyAnn ls p).2) := by
  simp only [applyAnn, h1]

/-- Case analysis on one line of the applier in the shape the inductions
need. -/
theorem applyAnn_cons_cases (l : Str) (ls : List Str) (p : PatchMap) :
    (∃ id fields, matchedId l = some id ∧ dlookup id p = some fields ∧
       applyAnn (l :: ls) p =
         (OutItem.orig l :: fields.map (fun kv => OutItem.ins id kv.1 kv.2)
            ++ (applyAnn ls (derase id p)).1,
          (applyAnn ls (derase id p)).2)) ∨
    (applyAnn (l :: ls) p = (OutItem.orig l :: (applyAnn ls p).1, (applyAnn ls p).2)) := by
  cases hm : matchedId l with
  | none => exact Or.inr (applyAnn_cons_nomatch l ls p hm)
  | some id =>
    cases hl : dlookup id p with
    | none => exact Or.inr (applyAnn_cons_nopatch l ls p id hm hl)
    | some fields =>
      exact Or.inl ⟨id, fields, rfl, hl, applyAnn_cons_consume l ls p id fields hm hl⟩

theorem origOf_ins_filterMap (id : Str) (fields : Dict Str Str) :
    List.filterMap (OutItem.origOf ∘ fun kv => OutItem.ins id kv.1 kv.2) fields = [] := by
  induction fields with
  | nil => rfl
  | cons kv fields ih =>
    rw [List.filterMap_cons]
    simp [OutItem.origOf, Function.comp, ih]

/-- The verbatim copies in the applier's output are exactly the input lines,
in order. -/
theorem applyAnn_origs (lines : List Str) (p : PatchMap) :
    (applyAnn lines p).1.filterMap OutItem.origOf = lines := by
  induction lines generalizing p with
  | nil => rfl
  | cons l ls ih =>
    rcases applyAnn_cons_cases l ls p with ⟨id, fields, _, _, heq⟩ | heq <;> rw [heq] <;>
      simp only [List.filterMap_cons, List.filterMap_append, OutItem.origOf, List.filterMap_map]
    · rw [origOf_ins_filterMap]
      simp [ih]
    · rw [ih]

/-- The leftover pending map is a sub-dictionary of the initial one. -/
theorem applyAnn_rest_sublist (lines : List Str) (p : PatchMap) :
    ((applyAnn lines p).2).Sublist p := by
  induction lines generalizing p with
  | nil => exact List.Sublist.refl p
  | cons l ls ih =>
    rcases applyAnn_cons_cases l ls p with ⟨id, fields, _, _, heq⟩ | heq <;> rw [heq]
    · exact (ih (derase id p)).trans (derase_sublist id p)
    · exact ih p

theorem dlookup_eq_none_of_sublist {α β : Type} [BEq α] [LawfulBEq α] (k : α)
    (d' d : Dict α β) (hs : d'.Sublist d) (h : dlookup k d = none) :
    dlookup k d' = none := by
  rw [dlookup_eq_none_iff] at h ⊢
  intro q hq
  exact h q (hs.subset hq)

/-- An identifier absent from the pending map never produces insertions. -/
theorem applyAnn_no_ins_of_absent (lines : List Str) (p : PatchMap) (id : Str)
    (h : dlookup id p = none) :
    ∀ it ∈ (applyAnn lines p).1, it.isInsOf id = false := by
  induction lines generalizing p with
  | nil => intro it hit; cases hit
  | cons l ls ih =>
    rcases applyAnn_cons_cases l ls p with ⟨id', fields, _, hl', heq⟩ | heq <;> rw [heq]
    · intro it hit
      have hne : ¬(id' = id) := by
        intro hc
        rw [hc, h] at hl'
        cases hl'
      rcases List.mem_cons.mp hit with h1 | h1
      · rw [h1]; rfl
      · rcases List.mem_append.mp h1 with h2 | h2
        · rcases List.mem_map.mp h2 with ⟨kv, _, hkv⟩
          rw [← hkv]
          simp [OutItem.isInsOf, hne]
        · have habs : dlookup id (derase id' p) = none :=
            dlookup_eq_none_of_sublist id _ p (derase_sublist id' p) h
          exact ih (derase id' p) habs it h2
    · intro it hit
      rcases List.mem_cons.mp hit with h1 | h1
      · rw [h1]; rfl
      · exact ih p h it h1

@[simp] theorem psize_nil : psize [] = 0 := rfl

@[simp] theorem psize_cons (kv : Str × Dict Str Str) (p : PatchMap) :
    psize (kv :: p) = kv.2.length + psize p := by
  simp [psize]

theorem derase_eq_self {α β : Type} [BEq α] [LawfulBEq α] (k : α) (d : Dict α β)
    (h : dlookup k d = none) : derase k d = d := by
  rw [dlookup_eq_none_iff] at h
  unfold derase
  rw [List.filter_eq_self]
  intro p hp
  simp [h p hp]

theorem nodup_dkeys_derase {α β : Type} [BEq α] (k : α) (d : Dict α β)
    (h : (dkeys d).Nodup) : (dkeys (derase k d)).Nodup := by
  apply List.Nodup.sublist _ h
  unfold dkeys derase
  exact List.Sublist.map Prod.fst (List.filter_sublist d)

theorem psize_derase (id : Str) (p : PatchMap) (fs : Dict Str Str)
    (hnd : (dkeys p).Nodup) (h : dlookup id p = some fs) :
    psize p = fs.length + psize (derase id p) := by
  induction p with
  | nil => cases h
  | cons kv p ih =>
    rw [dkeys_cons, List.nodup_cons] at hnd
    by_cases hk : kv.1 = id
    · rw [dlookup_cons, if_pos (by simp [hk])] at h
      cases h
      rw [derase_cons, if_pos (by simp [hk])]
      have hnone : dlookup id p = none := by
        rw [dlookup_eq_none_iff]
        intro q hq hqid
        exact hnd.1 (List.mem_map.mpr ⟨q, hq, hqid.trans hk.symm⟩)
      rw [derase_eq_self id p hnone, psize_cons]
    · rw [dlookup_cons_ne _ _ _ hk] at h
      rw [derase_cons, if_neg (by simp [hk]), psize_cons, psize_cons, ih hnd.2 h]
      omega

/-- Output length accounting: every line of input is copied and every
consumed patch contributes one line per field; `psize` of the leftover map
records exactly what was not consumed. -/
theorem applyAnn_length (lines : List Str) (p : PatchMap) (hnd : (dkeys p).Nodup) :
    (applyAnn lines p).1.length + psize (applyAnn lines p).2 =
      lines.length + psize p := by
  induction lines generalizing p with
  | nil => simp [applyAnn_nil]
  | cons l ls ih =>
    rcases applyAnn_cons_cases l ls p with ⟨id, fields, _, hl', heq⟩ | heq <;> rw [heq]
    · have h1 := ih (derase id p) (nodup_dkeys_derase id p hnd)
      have h2 := psize_derase id p fields hnd hl'
      simp only [List.length_cons, List.length_append, List.length_map]
      omega
    · have h1 := ih p hnd
      simp only [List.length_cons]
      omega

/-- The original lines embed into the rendered output as a subsequence. -/
theorem filterMap_orig_sublist_render (ann : List OutItem) :
    (ann.filterMap OutItem.origOf).Sublist (ann.map OutItem.render) := by
  induction ann with
  | nil => exact List.Sublist.refl _
  | cons it ann ih =>
    cases it with
    | orig l =>
      simp only [List.filterMap_cons, List.map_cons, OutItem.origOf, OutItem.render]
      exact List.Sublist.cons₂ l ih
    | ins id k v =>
      simp only [List.filterMap_cons, List.map_cons, OutItem.origOf, OutItem.render]
      exact List.Sublist.cons _ ih

theorem firstMatchIdx_cons (l : Str) (ls : List Str) (id : Str) :
    firstMatchIdx (l :: ls) id =
      if matchedId l == some id then some 0
      else (firstMatchIdx ls id).map (fun i => i + 1) := by
  unfold firstMatchIdx
  rw [List.findIdx?_cons]
  cases h : (matchedId l == some id) <;> simp [h, List.findIdx?_succ]

/-- A patch whose identifier never matches any line is neither applied (no
insertion carries its identifier) nor removed from the leftover map. -/
theorem applyAnn_unmatched (lines : List Str) (p : PatchMap) (id : Str)
    (fs : Dict Str Str) (hid : dlookup id p = some fs)
    (h : firstMatchIdx lines id = none) :
    (∀ it ∈ (applyAnn lines p).1, it.isInsOf id = false) ∧
      dlookup id (applyAnn lines p).2 = some fs := by
  induction lines generalizing p with
  | nil => exact ⟨fun it hit => absurd hit (by simp [applyAnn_nil]), hid⟩
  | cons l ls ih =>
    rw [firstMatchIdx_cons] at h
    have hml : ¬(matchedId l = some id) := by
      intro hc
      rw [if_pos (by simp [hc])] at h
      cases h
    rw [if_neg (by simp [hml])] at h
    have hrest : firstMatchIdx ls id = none := by
      cases hr : firstMatchIdx ls id with
      | none => rfl
      | some j => rw [hr] at h; cases h
    rcases applyAnn_cons_cases l ls p with ⟨id', fields, hm', hl', heq⟩ | heq <;> rw [heq]
    · have hne : ¬(id = id') := by
        intro hc
        rw [← hc] at hm'
        exact hml hm'
      have hid2 : dlookup id (derase id' p) = some fs := by
        rw [dlookup_derase_ne _ _ _ hne]
        exact hid
      obtain ⟨ihins, ihrest⟩ := ih (derase id' p) hid2 hrest
      refine ⟨?_, ihrest⟩
      intro it hit
      rcases List.mem_cons.mp hit with h1 | h1
      · rw [h1]; rfl
      · rcases List.mem_append.mp h1 with h2 | h2
        · rcases List.mem_map.mp h2 with ⟨kv, _, hkv⟩
          rw [← hkv]
          have hne2 : (id' == id) = false := by
            simp only [beq_eq_false_iff_ne]
            intro hc
            exact hne hc.symm
          simp [OutItem.isInsOf, hne2]
        · exact ihins it h2
    · obtain ⟨ihins, ihrest⟩ := ih p hid hrest
      refine ⟨?_, ihrest⟩
      intro it hit
      rcases List.mem_cons.mp hit with h1 | h1
      · rw [h1]; rfl
      · exact ihins it h1

/-- The central decomposition: if `id` has a pending patch and line `i` is
the first line on which the header search yields `id`, then the annotated
output is the processed prefix, then the copy of line `i` immediately
followed by exactly one insertion per patched field in order, then the
processed suffix; no other insertion for `id` occurs anywhere and `id` is
consumed. -/
theorem applyAnn_matched (lines : List Str) (p : PatchMap) (id : Str)
    (fs : Dict Str Str) (i : Nat) (hid : dlookup id p = some fs)
    (h : firstMatchIdx lines id = some i) :
    ∃ A B li, lines.get? i = some li ∧
      (applyAnn lines p).1 =
        A ++ (OutItem.orig li :: fs.map (fun kv => OutItem.ins id kv.1 kv.2)) ++ B ∧
      A.filterMap OutItem.origOf = lines.take i ∧
      B.filterMap OutItem.origOf = lines.drop (i + 1) ∧
      (∀ it ∈ A, it.isInsOf id = false) ∧
      (∀ it ∈ B, it.isInsOf id = false) ∧
      dlookup id (applyAnn lines p).2 = none := by
  induction lines generalizing p i with
  | nil => cases h
  | cons l ls ih =>
    rw [firstMatchIdx_cons] at h
    by_cases hml : matchedId l = some id
    · rw [if_pos (by simp [hml])] at h
      cases h
      rw [applyAnn_cons_consume l ls p id fs hml hid]
      have habs : dlookup id (derase id p) = none := dlookup_derase_self id p
      refine ⟨[], (applyAnn ls (derase id p)).1, l, rfl, by simp, rfl, ?_, ?_, ?_, ?_⟩
      · simpa using applyAnn_origs ls (derase id p)
      · intro it hit; cases hit
      · exact applyAnn_no_ins_of_absent ls (derase id p) id habs
      · exact dlookup_eq_none_of_sublist id _ _ (applyAnn_rest_sublist ls (derase id p)) habs
    · rw [if_neg (by simp [hml])] at h
      cases hr : firstMatchIdx ls id with
      | none => rw [hr] at h; cases h
      | some j =>
        rw [hr] at h
        have hij : i = j + 1 := by
          cases h
          rfl
        subst hij
        rcases applyAnn_cons_cases l ls p with ⟨id', fields, hm', hl', heq⟩ | heq <;> rw [heq]
        · have hne : ¬(id = id') := by
            intro hc
            rw [← hc] at hm'
            exact hml hm'
          have hid2 : dlookup id (derase id' p) = some fs := by
            rw [dlookup_derase_ne _ _ _ hne]
            exact hid
          obtain ⟨A, B, li, hget, hout, hA, hB, hAno, hBno, hrest⟩ :=
            ih (derase id' p) j hid2 hr
          refine ⟨OutItem.orig l :: fields.map (fun kv => OutItem.ins id' kv.1 kv.2) ++ A,
                  B, li, by simpa using hget, ?_, ?_, ?_, ?_, hBno, hrest⟩
          · rw [hout]
            simp [List.append_assoc]
          · simp only [List.filterMap_cons, List.filterMap_append, OutItem.origOf,
              List.filterMap_map]
            rw [origOf_ins_filterMap]
            simp [hA]
          · simpa using hB
          · intro it hit
            rcases List.mem_cons.mp hit with h1 | h1
            · rw [h1]; rfl
            · rcases List.mem_append.mp h1 with h2 | h2
              · rcases List.mem_map.mp h2 with ⟨kv, _, hkv⟩
                rw [← hkv]
                have hne2 : (id' == id) = false := by
                  simp only [beq_eq_false_iff_ne]
                  intro hc
                  exact hne hc.symm
                simp [OutItem.isInsOf, hne2]
              · exact hAno it h2
        · obtain ⟨A, B, li, hget, hout, hA, hB, hAno, hBno, hrest⟩ := ih p j hid hr
          refine ⟨OutItem.orig l :: A, B, li, by simpa using hget, ?_, ?_, ?_, ?_, hBno, hrest⟩
          · rw [hout]
            simp [List.append_assoc]
          · simp only [List.filterMap_cons, OutItem.origOf]
            simp [hA]
          · simpa using hB
          · intro it hit
            rcases List.mem_cons.mp hit with h1 | h1
            · rw [h1]; rfl
            · exact hAno it h1

/-! ## Pass-1 lemmas: the missing-template dictionary -/

/-- One loop iteration changes the missing dictionary exactly by the entry's
`setdefault` contribution. -/
theorem processEntry_missing (templates : Store) (acc : Pass1Out) (entry : Entry) :
    (processEntry templates acc entry).missing =
      match missingContribution templates entry with
      | some kr => dsetdefault kr.1 kr.2 acc.missing
      | none => acc.missing := by
  simp only [processEntry, missingContribution]
  split
  · rfl
  · split
    · rfl
    · split <;> split <;> rfl

/-- The missing dictionary of the whole pass is the `setdefault` fold over
the per-entry contributions. -/
theorem pass1_missing_fold (templates : Store) (entries : List Entry) :
    ∀ acc : Pass1Out,
      (entries.foldl (processEntry templates) acc).missing =
        entries.foldl
          (fun m e =>
            match missingContribution templates e with
            | some kr => dsetdefault kr.1 kr.2 m
            | none => m)
          acc.missing := by
  induction entries with
  | nil => intro acc; rfl
  | cons e es ih =>
    intro acc
    rw [List.foldl_cons, List.foldl_cons, ih]
    congr 1
    rw [processEntry_missing]

/-- `setdefault` never overwrites: a present binding survives the fold. -/
theorem missingFold_persist (templates : Store) (entries : List Entry)
    (m0 : Dict (Str × Str) (Str × Str)) (nk : Str × Str) (v : Str × Str)
    (h : dlookup nk m0 = some v) :
    dlookup nk (entries.foldl
      (fun m e =>
        match missingContribution templates e with
        | some kr => dsetdefault kr.1 kr.2 m
        | none => m)
      m0) = some v := by
  induction entries generalizing m0 with
  | nil => exact h
  | cons e es ih =>
    rw [List.foldl_cons]
    cases hc : missingContribution templates e with
    | none => exact ih m0 h
    | some kr =>
      by_cases hk : nk = kr.1
      · refine ih (dsetdefault kr.1 kr.2 m0) ?_
        rw [← hk, dsetdefault_of_mem _ _ _ (dmem_eq_true _ _ _ h)]
        exact h
      · refine ih (dsetdefault kr.1 kr.2 m0) ?_
        rw [dlookup_dsetdefault_ne _ _ _ _ hk]
        exact h

/-- First-seen semantics of the deduplicating dictionary: looking up a
normalized key in the fold result returns the raw pair of the first entry
that contributed that key. -/
theorem missingFold_first (templates : Store) (entries : List Entry)
    (m0 : Dict (Str × Str) (Str × Str)) (nk : Str × Str)
    (h0 : dlookup nk m0 = none) :
    dlookup nk (entries.foldl
      (fun m e =>
        match missingContribution templates e with
        | some kr => dsetdefault kr.1 kr.2 m
        | none => m)
      m0) =
      ((entries.filterMap (missingContribution templates)).find?
        (fun kr => kr.1 == nk)).map Prod.snd := by
  induction entries generalizing m0 with
  | nil => simpa using h0
  | cons e es ih =>
    rw [List.foldl_cons, List.filterMap_cons]
    cases hc : missingContribution templates e with
    | none => exact ih m0 h0
    | some kr =>
      by_cases hk : kr.1 = nk
      · have hb : (kr.1 == nk) = true := by simp [hk]
        have hset : dlookup nk (dsetdefault kr.1 kr.2 m0) = some kr.2 := by
          rw [hk]
          exact dlookup_dsetdefault_self _ _ _ h0
        rw [List.find?_cons]
        simp only [hb]
        exact missingFold_persist templates es (dsetdefault kr.1 kr.2 m0) nk kr.2 hset
      · have hb : (kr.1 == nk) = false := by simp [hk]
        rw [List.find?_cons]
        simp only [hb]
        refine ih (dsetdefault kr.1 kr.2 m0) ?_
        rw [dlookup_dsetdefault_ne _ _ _ _ (fun hc2 => hk hc2.symm)]
        exact h0

/-- The fold keeps the key list duplicate-free. -/
theorem missingFold_nodup (templates : Store) (entries : List Entry)
    (m0 : Dict (Str × Str) (Str × Str)) (h : (dkeys m0).Nodup) :
    (dkeys (entries.foldl
      (fun m e =>
        match missingContribution templates e with
        | some kr => dsetdefault kr.1 kr.2 m
        | none => m)
      m0)).Nodup := by
  induction entries generalizing m0 with
  | nil => exact h
  | cons e es ih =>
    rw [List.foldl_cons]
    cases hc : missingContribution templates e with
    | none => exact ih m0 h
    | some kr =>
      refine ih (dsetdefault kr.1 kr.2 m0) ?_
      cases hm : dmem kr.1 m0 with
      | true =>
        rw [dsetdefault_of_mem _ _ _ hm]
        exact h
      | false => exact nodup_dkeys_dsetdefault _ _ _ h hm

/-! ## Normalized-index lemmas (C8) -/

theorem buildNormIndex_concat (keys : List (Str × Str)) (kv : Str × Str) :
    buildNormIndex (keys ++ [kv]) = dinsert (normKey kv) kv (buildNormIndex keys) := by
  unfold buildNormIndex
  rw [List.foldl_append]
  rfl

/-- The dict-comprehension index resolves a normalized key to the **last**
raw key with that normalized form, in registration order. -/
theorem dlookup_buildNormIndex (keys : List (Str × Str)) (nk : Str × Str) :
    dlookup nk (buildNormIndex keys) =
      keys.reverse.find? (fun kv => normKey kv == nk) := by
  induction keys using List.reverseRecOn with
  | nil => rfl
  | append_singleton l a ih =>
    rw [buildNormIndex_concat, List.reverse_append]
    simp only [List.reverse_singleton, List.singleton_append, List.find?_cons]
    by_cases hk : normKey a = nk
    · have hb : (normKey a == nk) = true := by simp [hk]
      simp only [hb]
      rw [← hk]
      exact dlookup_dinsert_self _ _ _
    · have hb : (normKey a == nk) = false := by simp [hk]
      simp only [hb]
      rw [dlookup_dinsert_ne _ _ _ _ (fun hc => hk hc.symm)]
      exact ih

/-- The completer's template scan returns the first store item whose
normalized key matches. -/
theorem findTemplate_first (pre post : Store) (item : (Str × Str) × Dict Str Str)
    (cv cy : Str)
    (hpre : ∀ it ∈ pre, ¬(normalize_text it.1.1 = cv ∧ normalize_text it.1.2 = cy))
    (hit : normalize_text item.1.1 = cv ∧ normalize_text item.1.2 = cy) :
    findTemplate (pre ++ item :: post) cv cy = some item.2 := by
  unfold findTemplate
  rw [List.find?_append]
  have h1 : pre.find? (fun kv => normalize_text kv.1.1 == cv && normalize_text kv.1.2 == cy)
      = none := by
    rw [List.find?_eq_none]
    intro it hmem
    simp only [Bool.and_eq_true, beq_iff_eq, not_and]
    intro hc1 hc2
    exact hpre it hmem ⟨hc1, hc2⟩
  rw [h1]
  simp [List.find?_cons, hit.1, hit.2]

/-! ## String utilities for the round-trip proof -/

theorem takeWhile_append_all {α : Type} (p : α → Bool) (a : List α) (c : α) (b : List α)
    (ha : ∀ x ∈ a, p x = true) (hc : p c = false) :
    (a ++ c :: b).takeWhile p = a := by
  induction a with
  | nil => simp [List.takeWhile_cons, hc]
  | cons x a ih =>
    rw [List.cons_append, List.takeWhile_cons,
        if_pos (ha x (List.mem_cons_self x a)),
        ih (fun y hy => ha y (List.mem_cons_of_mem x hy))]

theorem dropWhile_append_all {α : Type} (p : α → Bool) (a : List α) (c : α) (b : List α)
    (ha : ∀ x ∈ a, p x = true) (hc : p c = false) :
    (a ++ c :: b).dropWhile p = c :: b := by
  induction a with
  | nil => simp [List.dropWhile_cons, hc]
  | cons x a ih =>
    rw [List.cons_append, List.dropWhile_cons,
        if_pos (ha x (List.mem_cons_self x a)),
        ih (fun y hy => ha y (List.mem_cons_of_mem x hy))]

@[simp] theorem expectLit_nil (s : Str) : expectLit [] s = some s := by
  simp [expectLit]

theorem expectLit_cons (c : Char) (p s : Str) :
    expectLit (c :: p) (c :: s) = expectLit p s := by
  unfold expectLit
  simp only [List.length_cons, List.take_succ_cons, List.drop_succ_cons, List.cons.injEq,
    true_and]

theorem expectLit_self_append (p rest : Str) : expectLit p (p ++ rest) = some rest := by
  induction p with
  | nil => simp
  | cons c p ih => rw [List.cons_append, expectLit_cons, ih]

theorem dropWhile_idem {α : Type} (p : α → Bool) (l : List α) :
    (l.dropWhile p).dropWhile p = l.dropWhile p := by
  induction l with
  | nil => rfl
  | cons c l ih =>
    rw [List.dropWhile_cons]
    by_cases h : p c = true
    · rw [if_pos h]; exact ih
    · rw [if_neg h, List.dropWhile_cons, if_neg h]

theorem dropWhile_head_false {α : Type} (p : α → Bool) (l : List α) (c : α) (t : List α)
    (h : l.dropWhile p = c :: t) : p c = false := by
  induction l with
  | nil => cases h
  | cons x l ih =>
    rw [List.dropWhile_cons] at h
    by_cases hx : p x = true
    · rw [if_pos hx] at h; exact ih h
    · rw [if_neg hx] at h
      cases h
      simpa using hx

theorem trimLeft_eq_self_of_head {l : Str} (h : ∀ c t, l = c :: t → isWS c = false) :
    trimLeft l = l := by
  cases l with
  | nil => rfl
  | cons c t =>
    unfold trimLeft
    rw [List.dropWhile_cons, if_neg (by simp [h c t rfl])]

theorem trimRight_idem (s : Str) : trimRight (trimRight s) = trimRight s := by
  unfold trimRight
  rw [List.reverse_reverse, dropWhile_idem]

theorem trimRight_prefix (s : Str) : (trimRight s).IsPrefix s := by
  unfold trimRight
  have h := (List.dropWhile_suffix (l := s.reverse) isWS).reverse
  rwa [List.reverse_reverse] at h

theorem trimLeft_trimRight_trimLeft (s : Str) :
    trimLeft (trimRight (trimLeft s)) = trimRight (trimLeft s) := by
  apply trimLeft_eq_self_of_head
  intro c t h
  obtain ⟨r, hr⟩ := trimRight_prefix (trimLeft s)
  rw [h] at hr
  have hdrop : trimLeft s = c :: (t ++ r) := by
    rw [← hr]
    rfl
  exact dropWhile_head_false isWS s c (t ++ r) hdrop

theorem pstrip_idem (s : Str) : pstrip (pstrip s) = pstrip s := by
  unfold pstrip
  rw [trimLeft_trimRight_trimLeft, trimRight_idem]

theorem replaceNL_no_newline (s : Str) : ∀ c ∈ replaceNL s, ¬(c = '\n') := by
  intro c hc
  unfold replaceNL at hc
  rw [List.mem_map] at hc
  obtain ⟨d, _, hd⟩ := hc
  by_cases h : d = '\n'
  · rw [if_pos h] at hd
    rw [← hd]
    decide
  · rw [if_neg h] at hd
    rw [← hd]
    exact h

theorem dropCR_no_cr (s : Str) : ∀ c ∈ dropCR s, ¬(c = '\r') := by
  intro c hc
  unfold dropCR at hc
  rw [List.mem_filter] at hc
  simpa using hc.2

theorem pstrip_sublist (s : Str) : (pstrip s).Sublist s := by
  unfold pstrip
  have h1 : (trimLeft s).Sublist s := List.dropWhile_sublist isWS
  have h2 : (trimRight (trimLeft s)).Sublist (trimLeft s) := by
    apply List.IsPrefix.sublist
    exact trimRight_prefix (trimLeft s)
  exact h2.trans h1

theorem cleanVal_no_newline (s : Str) : ∀ c ∈ cleanVal s, ¬(c = '\n') ∧ ¬(c = '\r') := by
  intro c hc
  unfold cleanVal at hc
  have hc2 : c ∈ dropCR (replaceNL s) := (pstrip_sublist _).subset hc
  constructor
  · have hc3 : c ∈ replaceNL s := (List.filter_sublist _).subset hc2
    exact replaceNL_no_newline s c hc3
  · exact dropCR_no_cr (replaceNL s) c hc2

theorem replaceNL_eq_self (s : Str) (h : ∀ c ∈ s, ¬(c = '\n')) : replaceNL s = s := by
  unfold replaceNL
  have h2 : List.map (fun c => if c = '\n' then ' ' else c) s = List.map id s := by
    apply List.map_congr_left
    intro c hc
    simp [h c hc]
  rw [h2, List.map_id]

theorem dropCR_eq_self (s : Str) (h : ∀ c ∈ s, ¬(c = '\r')) : dropCR s = s := by
  unfold dropCR
  rw [List.filter_eq_self]
  intro c hc
  simp [h c hc]

/-- The serializer's whitespace normalization is idempotent: the second pass
finds no newlines or carriage returns and nothing left to strip. -/
theorem cleanVal_idem (s : Str) : cleanVal (cleanVal s) = cleanVal s := by
  conv_lhs => rw [cleanVal]
  rw [replaceNL_eq_self _ (fun c hc => (cleanVal_no_newline s c hc).1),
      dropCR_eq_self _ (fun c hc => (cleanVal_no_newline s c hc).2)]
  conv_lhs => rw [cleanVal]
  conv_rhs => rw [cleanVal]
  exact pstrip_idem _

/-! ## `repr` / literal-evaluation round trip -/

theorem decodeHexDig_hexDig (n : Nat) (h : n < 16) : decodeHexDig (hexDig n) = some n := by
  interval_cases n <;> decide

theorem quoteOf_cases (s : Str) : quoteOf s = chApos ∨ quoteOf s = chQuote := by
  unfold quoteOf
  by_cases h : (s.contains chApos && !s.contains chQuote) = true
  · rw [if_pos h]
    exact Or.inr rfl
  · rw [if_neg h]
    exact Or.inl rfl

theorem hexDig_ne_newline (n : Nat) : ¬(hexDig n = '\n') := by
  unfold hexDig
  split <;> decide

/-- Decoding inverts escaping, one character at a time, across the whole
body of the literal. -/
theorem parseBody_flatten (q : Char) (hq : q = chApos ∨ q = chQuote) (s : Str) :
    parseBody q (((s.map (escChar q)).flatten) ++ [q]) = some s := by
  have hql : ¬(q = '\\') := by rcases hq with h | h <;> rw [h] <;> decide
  have hqx : ¬(q = 'x') := by rcases hq with h | h <;> rw [h] <;> decide
  have hqn : ¬(q = 'n') := by rcases hq with h | h <;> rw [h] <;> decide
  have hqr : ¬(q = 'r') := by rcases hq with h | h <;> rw [h] <;> decide
  have hqt : ¬(q = 't') := by rcases hq with h | h <;> rw [h] <;> decide
  induction s with
  | nil => simp [parseBody]
  | cons c s ih =>
    rw [List.map_cons, List.flatten_cons, List.append_assoc]
    by_cases h1 : c = '\\'
    · have hesc : escChar q c = ['\\', '\\'] := by
        unfold escChar
        rw [if_pos h1]
      rw [hesc]
      simp only [List.cons_append, List.nil_append]
      rw [parseBody.eq_def]
      simp [decodeSimpleEsc, ih, h1]
    · by_cases h2 : c = q
      · have hesc : escChar q c = ['\\', q] := by
          unfold escChar
          rw [if_neg h1, if_pos h2]
        rw [hesc]
        simp only [List.cons_append, List.nil_append]
        rw [parseBody.eq_def]
        simp [decodeSimpleEsc, ih, h2, hql, hqx, hqn, hqr, hqt]
      · by_cases h3 : c = '\n'
        · have hesc : escChar q c = ['\\', 'n'] := by
            unfold escChar
            rw [if_neg h1, if_neg h2, if_pos h3]
          rw [hesc]
          simp only [List.cons_append, List.nil_append]
          rw [parseBody.eq_def]
          simp [decodeSimpleEsc, ih, h3, hql, hqn]
        · by_cases h4 : c = '\r'
          · have hesc : escChar q c = ['\\', 'r'] := by
              unfold escChar
              rw [if_neg h1, if_neg h2, if_neg h3, if_pos h4]
            rw [hesc]
            simp only [List.cons_append, List.nil_append]
            rw [parseBody.eq_def]
            simp [decodeSimpleEsc, ih, h4, hql, hqr]
          · by_cases h5 : c = '\t'
            · have hesc : escChar q c = ['\\', 't'] := by
                unfold escChar
                rw [if_neg h1, if_neg h2, if_neg h3, if_neg h4, if_pos h5]
              rw [hesc]
              simp only [List.cons_append, List.nil_append]
              rw [parseBody.eq_def]
              simp [decodeSimpleEsc, ih, h5, hql, hqt]
            · by_cases h6 : (c.toNat < 32 ∨ c.toNat = 127)
              · have hesc : escChar q c =
                    ['\\', 'x', hexDig (c.toNat / 16), hexDig (c.toNat % 16)] := by
                  unfold escChar
                  rw [if_neg h1, if_neg h2, if_neg h3, if_neg h4, if_neg h5,
                      if_pos (show ((decide (c.toNat < 32) || decide (c.toNat = 127)) = true) by
                        simp only [Bool.or_eq_true, decide_eq_true_eq]
                        exact h6)]
                rw [hesc]
                simp only [List.cons_append, List.nil_append]
                have hlt : c.toNat < 128 := by omega
                have hhi : c.toNat / 16 < 16 := by omega
                have hlo : c.toNat % 16 < 16 := by omega
                rw [parseBody.eq_def]
                simp [decodeHexDig_hexDig _ hhi, decodeHexDig_hexDig _ hlo, ih]
                have harith : 16 * (c.toNat / 16) + c.toNat % 16 = c.toNat := by omega
                rw [harith, Char.ofNat_toNat]
              · have hesc : escChar q c = [c] := by
                  unfold escChar
                  rw [if_neg h1, if_neg h2, if_neg h3, if_neg h4, if_neg h5,
                      if_neg (show ¬((decide (c.toNat < 32) || decide (c.toNat = 127)) = true) by
                        simp only [Bool.or_eq_true, decide_eq_true_eq]
                        exact h6)]
                rw [hesc]
                simp only [List.singleton_append]
                rcases hR : (s.map (escChar q)).flatten ++ [q] with _ | ⟨d, rest2⟩
                · exact absurd hR (by simp)
                · rw [hR] at ih
                  rw [parseBody.eq_def]
                  simp [if_neg h1, if_neg h2, ih]

/-- `eval (repr s) = s`: Python's string literal evaluation inverts `repr`. -/
theorem pyReprParse_pyRepr (s : Str) : pyReprParse (pyRepr s) = some s := by
  show (if (decide (quoteOf s = chApos) || decide (quoteOf s = chQuote)) = true
        then parseBody (quoteOf s) ((s.map (escChar (quoteOf s))).flatten ++ [quoteOf s])
        else none) = some s
  rw [if_pos (by rcases quoteOf_cases s with h | h <;> simp [h])]
  exact parseBody_flatten (quoteOf s) (quoteOf_cases s) s

theorem escChar_no_newline (q c : Char) (hq : ¬(q = '\n')) :
    ∀ d ∈ escChar q c, ¬(d = '\n') := by
  intro d hd
  unfold escChar at hd
  split_ifs at hd with h1 h2 h3 h4 h5 h6 <;>
    simp only [List.mem_cons, List.mem_singleton, List.not_mem_nil, or_false] at hd
  · rcases hd with h | h <;> (subst h; decide)
  · rcases hd with h | h
    · subst h; decide
    · subst h; exact hq
  · rcases hd with h | h <;> (subst h; decide)
  · rcases hd with h | h <;> (subst h; decide)
  · rcases hd with h | h <;> (subst h; decide)
  · rcases hd with h | h | h | h
    · subst h; decide
    · subst h; decide
    · subst h; exact hexDig_ne_newline _
    · subst h; exact hexDig_ne_newline _
  · subst hd; exact h3

theorem pyRepr_no_newline (s : Str) : ∀ c ∈ pyRepr s, ¬(c = '\n') := by
  intro c hc
  have hqn : ¬(quoteOf s = '\n') := by
    rcases quoteOf_cases s with h | h <;> rw [h] <;> decide
  unfold pyRepr at hc
  rcases List.mem_cons.mp hc with h | h
  · rw [h]; exact hqn
  · rcases List.mem_append.mp h with h2 | h2
    · rw [List.mem_flatten] at h2
      obtain ⟨l, hl, hcl⟩ := h2
      rw [List.mem_map] at hl
      obtain ⟨d, _, hd⟩ := hl
      rw [← hd] at hcl
      exact escChar_no_newline (quoteOf s) d hqn c hcl
    · rw [List.mem_singleton] at h2
      rw [h2]
      exact hqn

/-! ## Line-level inverses for the regenerated store grammar -/

theorem safeStr_chars (s : Str) (h : safeStr s = true) :
    ∀ c ∈ s, ¬(c = chQuote) ∧ ¬(c = '\\') ∧ ¬(c = '\n') ∧ ¬(c = '\r') := by
  intro c hc
  unfold safeStr at h
  rw [List.all_eq_true] at h
  have h2 := h c hc
  simp only [Bool.not_eq_true', Bool.or_eq_false_iff, decide_eq_false_iff_not] at h2
  tauto

theorem notQuote_of_safe (s : Str) (h : safeStr s = true) :
    ∀ c ∈ s, notQuote c = true := by
  intro c hc
  unfold notQuote
  simp [(safeStr_chars s h c hc).1]

theorem parseKeyLine_render (v y : Str) (hv : safeStr v = true) (hy : safeStr y = true) :
    parseKeyLine (str "    (" ++ chQuote :: v ++ chQuote :: str ", " ++ chQuote :: y
      ++ chQuote :: str "): " ++ [chLB]) = some (v, y) := by
  unfold parseKeyLine
  have he1 : expectLit (str "    (" ++ [chQuote])
      (str "    (" ++ chQuote :: v ++ chQuote :: str ", " ++ chQuote :: y
        ++ chQuote :: str "): " ++ [chLB]) =
      some (v ++ chQuote :: str ", " ++ chQuote :: y ++ chQuote :: str "): " ++ [chLB]) := by
    rw [show (str "    (" ++ chQuote :: v ++ chQuote :: str ", " ++ chQuote :: y
          ++ chQuote :: str "): " ++ [chLB]) =
        (str "    (" ++ [chQuote]) ++ (v ++ chQuote :: str ", " ++ chQuote :: y
          ++ chQuote :: str "): " ++ [chLB]) from by simp]
    exact expectLit_self_append _ _
  have hassoc1 : (v ++ chQuote :: str ", " ++ chQuote :: y
      ++ chQuote :: str "): " ++ [chLB] : Str) =
      v ++ chQuote :: (str ", " ++ chQuote :: y ++ chQuote :: str "): " ++ [chLB]) := by
    simp
  have ht1 : List.takeWhile notQuote
      (v ++ chQuote :: str ", " ++ chQuote :: y ++ chQuote :: str "): " ++ [chLB]) = v := by
    rw [hassoc1]
    exact takeWhile_append_all notQuote v chQuote _ (notQuote_of_safe v hv) (by decide)
  have hd1 : List.dropWhile notQuote
      (v ++ chQuote :: str ", " ++ chQuote :: y ++ chQuote :: str "): " ++ [chLB]) =
      chQuote :: (str ", " ++ chQuote :: y ++ chQuote :: str "): " ++ [chLB]) := by
    rw [hassoc1]
    exact dropWhile_append_all notQuote v chQuote _ (notQuote_of_safe v hv) (by decide)
  have he2 : expectLit (chQuote :: str ", " ++ [chQuote])
      (chQuote :: (str ", " ++ chQuote :: y ++ chQuote :: str "): " ++ [chLB])) =
      some (y ++ chQuote :: str "): " ++ [chLB]) := by
    rw [show (chQuote :: (str ", " ++ chQuote :: y ++ chQuote :: str "): " ++ [chLB])) =
        (chQuote :: str ", " ++ [chQuote]) ++ (y ++ chQuote :: str "): " ++ [chLB])
        from by simp]
    exact expectLit_self_append _ _
  have hassoc2 : (y ++ chQuote :: str "): " ++ [chLB] : Str) =
      y ++ chQuote :: (str "): " ++ [chLB]) := by
    simp
  have ht2 : List.takeWhile notQuote (y ++ chQuote :: str "): " ++ [chLB]) = y := by
    rw [hassoc2]
    exact takeWhile_append_all notQuote y chQuote _ (notQuote_of_safe y hy) (by decide)
  have hd2 : List.dropWhile notQuote (y ++ chQuote :: str "): " ++ [chLB]) =
      chQuote :: (str "): " ++ [chLB]) := by
    rw [hassoc2]
    exact dropWhile_append_all notQuote y chQuote _ (notQuote_of_safe y hy) (by decide)
  have he3 : expectLit (chQuote :: str "): " ++ [chLB])
      (chQuote :: (str "): " ++ [chLB])) = some [] := by
    rw [show (chQuote :: (str "): " ++ [chLB])) =
        (chQuote :: str "): " ++ [chLB]) ++ ([] : Str) from by simp]
    exact expectLit_self_append _ _
  rw [he1]
  simp only [Option.bind_eq_bind, Option.some_bind, ht1, hd1, he2, ht2, hd2, he3]
  simp [hv, hy]

theorem parseFieldLine_render (k w : Str) (hk : safeStr k = true) :
    parseFieldLine (str "        " ++ chQuote :: k ++ chQuote :: str ": "
      ++ pyRepr w ++ [',']) = some (k, w) := by
  unfold parseFieldLine
  have he1 : expectLit (str "        " ++ [chQuote])
      (str "        " ++ chQuote :: k ++ chQuote :: str ": " ++ pyRepr w ++ [',']) =
      some (k ++ chQuote :: str ": " ++ pyRepr w ++ [',']) := by
    rw [show (str "        " ++ chQuote :: k ++ chQuote :: str ": " ++ pyRepr w ++ [',']) =
        (str "        " ++ [chQuote]) ++ (k ++ chQuote :: str ": " ++ pyRepr w ++ [','])
        from by simp]
    exact expectLit_self_append _ _
  have hassoc1 : (k ++ chQuote :: str ": " ++ pyRepr w ++ [','] : Str) =
      k ++ chQuote :: (str ": " ++ pyRepr w ++ [',']) := by
    simp
  have ht1 : List.takeWhile notQuote (k ++ chQuote :: str ": " ++ pyRepr w ++ [',']) = k := by
    rw [hassoc1]
    exact takeWhile_append_all notQuote k chQuote _ (notQuote_of_safe k hk) (by decide)
  have hd1 : List.dropWhile notQuote (k ++ chQuote :: str ": " ++ pyRepr w ++ [',']) =
      chQuote :: (str ": " ++ pyRepr w ++ [',']) := by
    rw [hassoc1]
    exact dropWhile_append_all notQuote k chQuote _ (notQuote_of_safe k hk) (by decide)
  have he2 : expectLit (chQuote :: str ": ")
      (chQuote :: (str ": " ++ pyRepr w ++ [','])) = some (pyRepr w ++ [',']) := by
    rw [show (chQuote :: (str ": " ++ pyRepr w ++ [','])) =
        (chQuote :: str ": ") ++ (pyRepr w ++ [',']) from by simp]
    exact expectLit_self_append _ _
  rw [he1]
  simp only [Option.bind_eq_bind, Option.some_bind, ht1, hd1, he2]
  rw [List.reverse_append, List.reverse_singleton, List.singleton_append]
  simp only [List.reverse_reverse]
  rw [if_pos (by simp [hk])]
  rw [pyReprParse_pyRepr]
  rfl

theorem fieldLine_ne_closer (k w : Str) :
    ¬((str "        " ++ chQuote :: k ++ chQuote :: str ": " ++ pyRepr w ++ [',']) =
      str "    " ++ [chRB, ',']) := by
  intro heq
  have hlen := congrArg List.length heq
  have h1 : (str "        ").length = 8 := rfl
  have h2 : (str ": ").length = 2 := rfl
  have h3 : (str "    ").length = 4 := rfl
  have h4 : 1 ≤ (pyRepr w).length := by
    unfold pyRepr
    simp
  simp only [List.length_append, List.length_cons, h1, h2, h3, List.length_nil] at hlen
  omega

theorem parseFields_render (fields : Dict Str Str) (tail : List Str)
    (hsafe : ∀ kv ∈ fields, safeStr kv.1 = true) :
    parseFields ((fields.map (fun kv => str "        " ++ chQuote :: kv.1
        ++ chQuote :: str ": " ++ pyRepr (cleanVal kv.2) ++ [','])) ++
      ((str "    " ++ [chRB, ',']) :: tail)) =
      some (fields.map (fun kv => (kv.1, cleanVal kv.2)), tail) := by
  induction fields with
  | nil =>
    rw [List.map_nil, List.nil_append]
    unfold parseFields
    rw [if_pos rfl]
    rfl
  | cons kv fields ih =>
    rw [List.map_cons, List.cons_append]
    unfold parseFields
    rw [if_neg (fieldLine_ne_closer kv.1 (cleanVal kv.2))]
    rw [parseFieldLine_render kv.1 (cleanVal kv.2) (hsafe kv (List.mem_cons_self kv fields))]
    simp only [Option.bind_eq_bind, Option.some_bind]
    rw [ih (fun p hp => hsafe p (List.mem_cons_of_mem kv hp))]
    rfl

theorem keyLine_ne_closeBrace (v y : Str) :
    ¬((str "    (" ++ chQuote :: v ++ chQuote :: str ", " ++ chQuote :: y
        ++ chQuote :: str "): " ++ [chLB]) = [chRB]) := by
  intro heq
  have hlen := congrArg List.length heq
  have h1 : (str "    (").length = 5 := rfl
  have h2 : (str ", ").length = 2 := rfl
  have h3 : (str "): ").length = 3 := rfl
  simp only [List.length_append, List.length_cons, h1, h2, h3, List.length_nil] at hlen
  omega

theorem parseBlocks_render (items : List TplItem) (fuel : Nat)
    (hfuel : items.length ≤ fuel) (hsafe : ∀ it ∈ items, safeItem it = true) :
    parseBlocks fuel ((items.map blockLines).flatten ++ [[chRB]]) =
      some (cleanStore items) := by
  induction items generalizing fuel with
  | nil =>
    rw [List.map_nil, List.flatten_nil, List.nil_append]
    unfold parseBlocks
    rw [if_pos rfl]
    rfl
  | cons it items ih =>
    rw [List.map_cons, List.flatten_cons]
    have hsit : safeItem it = true := hsafe it (List.mem_cons_self it items)
    have hsv : safeStr it.1.1 = true := by
      unfold safeItem at hsit
      simp only [Bool.and_eq_true] at hsit
      exact hsit.1.1
    have hsy : safeStr it.1.2 = true := by
      unfold safeItem at hsit
      simp only [Bool.and_eq_true] at hsit
      exact hsit.1.2
    have hsk : ∀ kv ∈ it.2, safeStr kv.1 = true := by
      intro kv hkv
      unfold safeItem at hsit
      simp only [Bool.and_eq_true, List.all_eq_true] at hsit
      exact hsit.2 kv hkv
    cases fuel with
    | zero => exact absurd hfuel (by simp)
    | succ fuel =>
      rw [show blockLines it ++ (items.map blockLines).flatten ++ [[chRB]] =
          (str "    (" ++ chQuote :: it.1.1 ++ chQuote :: str ", " ++ chQuote :: it.1.2
            ++ chQuote :: str "): " ++ [chLB]) ::
          ((it.2.map (fun kv => str "        " ++ chQuote :: kv.1
              ++ chQuote :: str ": " ++ pyRepr (cleanVal kv.2) ++ [','])) ++
            ((str "    " ++ [chRB, ',']) ::
              (([] : Str) :: ((items.map blockLines).flatten ++ [[chRB]])))) from by
        simp [blockLines]]
      unfold parseBlocks
      rw [if_neg (keyLine_ne_closeBrace it.1.1 it.1.2)]
      rw [parseKeyLine_render it.1.1 it.1.2 hsv hsy]
      simp only [Option.bind_eq_bind, Option.some_bind]
      rw [parseFields_render it.2 _ hsk]
      simp only [Option.bind_eq_bind, Option.some_bind]
      simp only [if_true]
      rw [ih fuel (by simpa using hfuel) (fun p hp => hsafe p (List.mem_cons_of_mem it hp))]
      simp only [Option.bind_eq_bind, Option.some_bind]
      rfl

/-! ## Newline-freedom of the rendered lines and split/join inversion -/

theorem noNL_append (a b : Str) (ha : ∀ c ∈ a, ¬(c = '\n')) (hb : ∀ c ∈ b, ¬(c = '\n')) :
    ∀ c ∈ a ++ b, ¬(c = '\n') := by
  intro c hc
  rcases List.mem_append.mp hc with h | h
  · exact ha c h
  · exact hb c h

theorem noNL_cons (c0 : Char) (b : Str) (h0 : ¬(c0 = '\n')) (hb : ∀ c ∈ b, ¬(c = '\n')) :
    ∀ c ∈ c0 :: b, ¬(c = '\n') := by
  intro c hc
  rcases List.mem_cons.mp hc with h | h
  · rw [h]; exact h0
  · exact hb c h

theorem noNL_safe (s : Str) (h : safeStr s = true) : ∀ c ∈ s, ¬(c = '\n') :=
  fun c hc => (safeStr_chars s h c hc).2.2.1

theorem blockLines_no_newline (it : TplItem) (hsafe : safeItem it = true) :
    ∀ l ∈ blockLines it, ∀ c ∈ l, ¬(c = '\n') := by
  have hsv : safeStr it.1.1 = true := by
    unfold safeItem at hsafe
    simp only [Bool.and_eq_true] at hsafe
    exact hsafe.1.1
  have hsy : safeStr it.1.2 = true := by
    unfold safeItem at hsafe
    simp only [Bool.and_eq_true] at hsafe
    exact hsafe.1.2
  have hsk : ∀ kv ∈ it.2, safeStr kv.1 = true := by
    intro kv hkv
    unfold safeItem at hsafe
    simp only [Bool.and_eq_true, List.all_eq_true] at hsafe
    exact hsafe.2 kv hkv
  intro l hl
  unfold blockLines at hl
  rcases List.mem_cons.mp hl with h | h
  · rw [h]
    exact noNL_append _ _
      (noNL_append _ _
        (noNL_append _ _
          (noNL_append _ _
            (noNL_append _ _ (by decide) (noNL_cons _ _ (by decide) (noNL_safe _ hsv)))
            (by decide))
          (noNL_cons _ _ (by decide) (noNL_safe _ hsy)))
        (by decide))
      (by decide)
  · rcases List.mem_append.mp h with h2 | h2
    · rw [List.mem_map] at h2
      obtain ⟨kv, hkv, hkvl⟩ := h2
      rw [← hkvl]
      exact noNL_append _ _
        (noNL_append _ _
          (noNL_append _ _
            (noNL_append _ _ (by decide) (noNL_cons _ _ (by decide) (noNL_safe _ (hsk kv hkv))))
            (by decide))
          (pyRepr_no_newline _))
        (by decide)
    · rcases List.mem_cons.mp h2 with h3 | h3
      · rw [h3]
        exact noNL_append _ _ (by decide) (by decide)
      · rw [List.mem_singleton] at h3
        rw [h3]
        intro c hc
        cases hc

theorem splitNL_line (l : Str) (h : ∀ c ∈ l, ¬(c = '\n')) (rest : Str) :
    splitNL (l ++ '\n' :: rest) = l :: splitNL rest := by
  induction l with
  | nil =>
    rw [List.nil_append]
    conv_lhs => rw [splitNL.eq_def]
    simp
  | cons c l ih =>
    have hc2 : ¬(c = '\n') := h c (List.mem_cons_self c l)
    rw [List.cons_append]
    conv_lhs => rw [splitNL.eq_def]
    simp only [hc2, if_false]
    rw [ih (fun d hd => h d (List.mem_cons_of_mem c hd))]

theorem splitNL_noNL (l : Str) (h : ∀ c ∈ l, ¬(c = '\n')) : splitNL l = [l] := by
  induction l with
  | nil => rfl
  | cons c l ih =>
    have hc2 : ¬(c = '\n') := h c (List.mem_cons_self c l)
    conv_lhs => rw [splitNL.eq_def]
    simp only [hc2, if_false]
    rw [ih (fun d hd => h d (List.mem_cons_of_mem c hd))]

theorem splitNL_joinNL (lines : List Str) (hne : ¬(lines = []))
    (h : ∀ l ∈ lines, ∀ c ∈ l, ¬(c = '\n')) : splitNL (joinNL lines) = lines := by
  induction lines with
  | nil => exact absurd rfl hne
  | cons l ls ih =>
    cases ls with
    | nil =>
      unfold joinNL
      simp only [List.map_nil, List.flatten_nil, List.append_nil]
      exact splitNL_noNL l (h l (List.mem_cons_self l []))
    | cons r rs =>
      have hjoin : joinNL (l :: r :: rs) = l ++ '\n' :: joinNL (r :: rs) := by
        unfold joinNL
        simp
      rw [hjoin, splitNL_line l (h l (List.mem_cons_self l (r :: rs)))]
      rw [ih (by simp) (fun m hm => h m (List.mem_cons_of_mem l hm))]

/-! ## Round-trip of the regenerated store file -/

theorem templateFileLines_cons (items : List TplItem) :
    templateFileLines items =
      (str "TEMPLATES = " ++ [chLB]) :: ((items.map blockLines).flatten ++ [[chRB]]) := rfl

theorem templateFileLines_ne_nil (items : List TplItem) :
    ¬(templateFileLines items = []) := by
  rw [templateFileLines_cons]
  simp

theorem templateFileLines_no_newline (items : List TplItem)
    (hsafe : ∀ it ∈ items, safeItem it = true) :
    ∀ l ∈ templateFileLines items, ∀ c ∈ l, ¬(c = '\n') := by
  intro l hl
  rw [templateFileLines_cons] at hl
  rcases List.mem_cons.mp hl with h | h
  · rw [h]
    decide
  · rcases List.mem_append.mp h with h2 | h2
    · rw [List.mem_flatten] at h2
      obtain ⟨ls, hls, hlls⟩ := h2
      rw [List.mem_map] at hls
      obtain ⟨it, hit, hblk⟩ := hls
      rw [← hblk] at hlls
      exact blockLines_no_newline it (hsafe it hit) l hlls
    · rw [List.mem_singleton] at h2
      rw [h2]
      decide

theorem regenerateContent_eq (store : Store) :
    regenerateContent store = joinNL (templateFileLines (exportStore store)) := rfl

theorem length_le_blockFlatten (items : List TplItem) :
    items.length ≤ ((items.map blockLines).flatten).length := by
  induction items with
  | nil => simp
  | cons it items ih =>
    rw [List.map_cons, List.flatten_cons, List.length_cons, List.length_append]
    have hbl : 1 ≤ (blockLines it).length := by
      unfold blockLines
      simp
    omega

/-- Loading the regenerated file recovers the sorted store with every value
whitespace-normalized, provided no key contains a character the serializer
would escape. -/
theorem loadTemplates_regenerateContent (store : Store) (hsafe : safeStore store = true) :
    loadTemplates (regenerateContent store) = some (cleanStore (exportStore store)) := by
  have hsafeExp : ∀ it ∈ exportStore store, safeItem it = true := by
    intro it hit
    have hmem : it ∈ store := (exportStore_perm store).mem_iff.mp hit
    exact List.all_eq_true.mp hsafe it hmem
  rw [regenerateContent_eq]
  unfold loadTemplates
  rw [splitNL_joinNL (templateFileLines (exportStore store))
      (templateFileLines_ne_nil _) (templateFileLines_no_newline _ hsafeExp)]
  rw [templateFileLines_cons]
  show (if (str "TEMPLATES = " ++ [chLB]) = str "TEMPLATES = " ++ [chLB] then
      parseBlocks (((exportStore store).map blockLines).flatten ++ [[chRB]]).length
        (((exportStore store).map blockLines).flatten ++ [[chRB]])
    else none) = some (cleanStore (exportStore store))
  rw [if_pos rfl]
  refine parseBlocks_render (exportStore store) _ ?_ hsafeExp
  rw [List.length_append]
  have := length_le_blockFlatten (exportStore store)
  have hperm := (exportStore_perm store).length_eq
  omega

/-! ## Idempotence: regenerating from the loaded store reproduces the file -/

theorem ltItem_cleanItem (a b : TplItem) :
    ltItem (cleanItem a) (cleanItem b) = ltItem a b := rfl

theorem safeItem_cleanItem (it : TplItem) : safeItem (cleanItem it) = safeItem it := by
  unfold safeItem cleanItem
  rw [List.all_map]
  rfl

theorem safeStore_cleanStore (store : Store) (h : safeStore store = true) :
    safeStore (cleanStore store) = true := by
  unfold safeStore cleanStore
  rw [List.all_map]
  rw [List.all_eq_true]
  intro it hit
  rw [Function.comp_apply, safeItem_cleanItem]
  exact List.all_eq_true.mp h it hit

theorem safeStore_exportStore (store : Store) (h : safeStore store = true) :
    safeStore (exportStore store) = true := by
  unfold safeStore
  rw [List.all_eq_true]
  intro it hit
  exact List.all_eq_true.mp h it ((exportStore_perm store).mem_iff.mp hit)

theorem exportStore_cleanStore_exportStore (s : Store) :
    exportStore (cleanStore (exportStore s)) = cleanStore (exportStore s) := by
  apply exportStore_eq_self
  exact List.Pairwise.map cleanItem (fun a b h => h) (exportStore_pairwise s)

theorem blockLines_cleanItem (it : TplItem) : blockLines (cleanItem it) = blockLines it := by
  unfold blockLines cleanItem
  simp [List.map_map, Function.comp, cleanVal_idem]

theorem regenerateContent_cleanExport (store : Store) :
    regenerateContent (cleanStore (exportStore store)) = regenerateContent store := by
  rw [regenerateContent_eq, regenerateContent_eq, exportStore_cleanStore_exportStore]
  rw [templateFileLines_cons, templateFileLines_cons]
  unfold cleanStore
  rw [List.map_map]
  have hmaps : (exportStore store).map (blockLines ∘ cleanItem) =
      (exportStore store).map blockLines :=
    List.map_congr_left (fun it _ => blockLines_cleanItem it)
  rw [hmaps]

/-! ## Small assembly lemmas for the policy and invariant statements -/

theorem dlookup_some_mem {β : Type} (f : Str) (d : Dict Str β) (v : β)
    (h : dlookup f d = some v) : (f, v) ∈ d := by
  obtain ⟨pre, post, hd, _⟩ := dlookup_some_split f d v h
  rw [hd]
  exact List.mem_append.mpr (Or.inr (List.mem_cons_self _ _))

/-- Completion mode records exactly the conflict triple of the spec scenario:
a field present on both sides with differing normalized values. -/
theorem completionMerge_conflict_mem (entry : Entry) (tpl : Dict Str Str) (f ev tv : Str)
    (hentry : dlookup f entry = some ev) (htpl : dlookup f tpl = some tv)
    (hne : ¬(normalize_text ev = normalize_text tv)) :
    (f, ev, tv) ∈ (completionMerge entry tpl).conflicts := by
  rw [completionMerge_eq]
  simp only [List.mem_filterMap]
  refine ⟨(f, tv), dlookup_some_mem f tpl tv htpl, ?_⟩
  rw [hentry]
  simp [hne]

theorem completionMerge_patch_sublist (entry : Entry) (tpl : Dict Str Str) :
    (completionMerge entry tpl).patch.Sublist tpl := by
  rw [completionMerge_eq]
  exact List.filter_sublist tpl

theorem dkeys_metaOf_nodup (entry : Entry) (h : (dkeys entry).Nodup) :
    (dkeys (metaOf entry)).Nodup := by
  have hs : (metaOf entry).Sublist entry := List.filter_sublist entry
  exact List.Nodup.sublist (List.Sublist.map Prod.fst hs) h

theorem metaOf_key_ne (entry : Entry) (k : Str) (hk : EXCLUDED_KEYS.contains k = true) :
    ∀ kv ∈ metaOf entry, ¬(kv.1 = k) := by
  intro kv hkv heq
  have h1 := metaOf_keys_not_excluded entry kv hkv
  rw [heq, hk] at h1
  cases h1

/-- Excluded fields pass through the ingestion merge untouched: the merged
map keeps the template value (here: absence) and neither report names them. -/
theorem ingestionMerge_excluded (tpl : Dict Str Str) (entry : Entry) (k : Str)
    (hk : EXCLUDED_KEYS.contains k = true) (htpl : dlookup k tpl = none) :
    dlookup k (ingestionMerge tpl (metaOf entry)).merged = none ∧
    ¬(k ∈ (ingestionMerge tpl (metaOf entry)).missingFields) ∧
    ¬(k ∈ (ingestionMerge tpl (metaOf entry)).differingFields) := by
  have hne := metaOf_key_ne entry k hk
  have hkeys : ¬(k ∈ dkeys (metaOf entry)) := by
    intro hc
    rw [dkeys, List.mem_map] at hc
    obtain ⟨kv, hkv, hkveq⟩ := hc
    exact hne kv hkv hkveq
  refine ⟨?_, ?_, ?_⟩
  · rw [ingestionMerge_eq_foldl]
    rw [ingFold_merged_lookup_of_not_key (metaOf entry) ⟨tpl, [], []⟩ k hne]
    exact htpl
  · intro hc
    rw [ingestionMerge_eq_foldl] at hc
    rcases (ingFold_fields_subset (metaOf entry) ⟨tpl, [], []⟩ k).1 hc with h1 | h1
    · cases h1
    · exact hkeys h1
  · intro hc
    rw [ingestionMerge_eq_foldl] at hc
    rcases (ingFold_fields_subset (metaOf entry) ⟨tpl, [], []⟩ k).2 hc with h1 | h1
    · cases h1
    · exact hkeys h1

theorem backupPath_beq_false (p : Str) : (backupPath p == p) = false := by
  rw [beq_eq_false_iff_ne]
  intro hc
  have hlen := congrArg List.length hc
  rw [backupPath, List.length_append] at hlen
  have h4 : (str ".bak").length = 4 := rfl
  omega

theorem yearValue_no_digits (y : Str) (h : y.all (fun c => !c.isDigit) = true) :
    yearValue y = -1 := by
  have hf : y.filter Char.isDigit = [] := by
    rw [List.filter_eq_nil_iff]
    intro c hc
    have := List.all_eq_true.mp h c hc
    simpa using this
  unfold yearValue
  rw [hf]
  rfl

/-! ## The claims -/

/-- C1, counterexample to the stated insertion format: the applier renders a
patched field as `  {key:<12} = {value},` with the key left-justified in a
twelve-character column, not as `  field = {value},` with a single space, so
for the seven-character key `acronym` the written line carries six padding
blanks that the claimed format lacks. -/
theorem C1_format_counterexample :
    OutItem.render (OutItem.ins (str "e1") (str "acronym") (str "NeurIPS")) =
      str "  acronym      = " ++ chLB :: str "NeurIPS" ++ [chRB, ',', '\n'] ∧
    ¬(OutItem.render (OutItem.ins (str "e1") (str "acronym") (str "NeurIPS")) =
      str "  acronym = " ++ chLB :: str "NeurIPS" ++ [chRB, ',', '\n']) := by
  exact ⟨by decide, by decide⟩

/-- C1 (amended): the patch applier emits every original line byte-identical
and in original order (the copies are exactly the input lines); every
inserted line is rendered as two spaces, the key left-justified to twelve
characters, an equals sign and the braced value with a trailing comma and
newline; for each pending identifier whose first matching line is line `i`,
the output is the processed prefix, the copy of line `i` immediately followed
by exactly one insertion per patched field in template order, and the
processed suffix, with no insertion for that identifier anywhere else and the
identifier consumed from the pending map; and the number of emitted items
plus the field count of the leftover patches equals the number of input lines
plus the field count of the initial patches, so the inserted lines are
exactly the fields of the consumed patches. -/
theorem C1_patch_applier_amended (lines : List Str) (p : PatchMap)
    (hnd : (dkeys p).Nodup) :
    ((applyAnn lines p).1.filterMap OutItem.origOf = lines) ∧
    (∀ id k v, OutItem.render (OutItem.ins id k v) =
      str "  " ++ padRight k 12 ++ str " = " ++ chLB :: v ++ [chRB, ',', '\n']) ∧
    (∀ id fs i, dlookup id p = some fs → firstMatchIdx lines id = some i →
      ∃ A B li, lines.get? i = some li ∧
        (applyAnn lines p).1 =
          A ++ (OutItem.orig li :: fs.map (fun kv => OutItem.ins id kv.1 kv.2)) ++ B ∧
        A.filterMap OutItem.origOf = lines.take i ∧
        B.filterMap OutItem.origOf = lines.drop (i + 1) ∧
        (∀ it ∈ A, it.isInsOf id = false) ∧
        (∀ it ∈ B, it.isInsOf id = false) ∧
        dlookup id (applyAnn lines p).2 = none) ∧
    ((applyAnn lines p).1.length + psize (applyAnn lines p).2 =
      lines.length + psize p) := by
  refine ⟨applyAnn_origs lines p, fun id k v => rfl, ?_, applyAnn_length lines p hnd⟩
  intro id fs i hid hfirst
  exact applyAnn_matched lines p id fs i hid hfirst

theorem C1_patch_applier_amended_witness :
    (dkeys ([(str "k1", [(str "f", str "v")])] : PatchMap)).Nodup ∧
    (applyAnn [str "@misc" ++ chLB :: str "k1,"]
        [(str "k1", [(str "f", str "v")])]).1.filterMap OutItem.origOf =
      [str "@misc" ++ chLB :: str "k1,"] :=
  ⟨by decide,
   (C1_patch_applier_amended [str "@misc" ++ chLB :: str "k1,"]
     [(str "k1", [(str "f", str "v")])] (by decide)).1⟩

/-- C2: a computed Patch whose identifier never matches any line of the file
is dropped silently, contradicting the requirement that it be surfaced.  In
this concrete run pass 1 computes one patch for entry `id1`, the single text
line matches no header, and the non-dry run writes only the unchanged output
file: the leftover patch survives the applier unconsumed yet appears in no
written artifact. -/
theorem C2_unresolved_patch_dropped :
    (pass1 [((str "V", str "2020"), [(str "acronym", str "X")])]
        [[(str "ID", str "id1"), (str "year", str "2020"), (str "booktitle", str "V")]]).patches =
      [(str "id1", [(str "acronym", str "X")])] ∧
    (applyLines [str "% malformed header, no at-sign"]
        [(str "id1", [(str "acronym", str "X")])]).2 =
      [(str "id1", [(str "acronym", str "X")])] ∧
    completerRun [((str "V", str "2020"), [(str "acronym", str "X")])]
        [[(str "ID", str "id1"), (str "year", str "2020"), (str "booktitle", str "V")]]
        [str "% malformed header, no at-sign"]
        (str "in.bib") (str "out.bib") false (str ".") =
      { written := [(str "out.bib", str "% malformed header, no at-sign")] } := by
  refine ⟨by decide, by decide, by decide⟩

/-- C3, counterexample to the unconditional round-trip: a store whose venue
key is a double-quote character regenerates to a file whose key line has an
unbalanced string literal, and loading that output fails (Python raises
SyntaxError), so no field value survives at all. -/
theorem C3_roundtrip_counterexample :
    loadTemplates (regenerateContent [(([chQuote], str "2020"), ([] : Dict Str Str))]) =
      none := by
  decide

/-- C3 (amended): for every store whose keys are free of the characters the
serializer would escape (double quote, backslash, newline, carriage return),
loading the regenerated output succeeds and returns the exported items with
each field value passed through the whitespace normalization (embedded
newlines to spaces, carriage returns removed, ends stripped) and otherwise
verbatim; the loaded store is a fixed point of the export sort, and
regenerating from it reproduces the previous output byte for byte. -/
theorem C3_roundtrip_amended (store : Store) (hsafe : safeStore store = true) :
    loadTemplates (regenerateContent store) = some (cleanStore (exportStore store)) ∧
    exportStore (cleanStore (exportStore store)) = cleanStore (exportStore store) ∧
    regenerateContent (cleanStore (exportStore store)) = regenerateContent store :=
  ⟨loadTemplates_regenerateContent store hsafe,
   exportStore_cleanStore_exportStore store,
   regenerateContent_cleanExport store⟩

theorem C3_roundtrip_amended_witness :
    safeStore [((str "V", str "2020"), [(str "acronym", str "X")])] = true ∧
    loadTemplates (regenerateContent [((str "V", str "2020"), [(str "acronym", str "X")])]) =
      some (cleanStore (exportStore [((str "V", str "2020"), [(str "acronym", str "X")])])) :=
  ⟨by decide,
   (C3_roundtrip_amended [((str "V", str "2020"), [(str "acronym", str "X")])] (by decide)).1⟩

/-- C4: in the update branch the previous destination content is written in
full to the backup path (the destination path with `.bak` appended) as the
second event of the trace, the destination itself is overwritten only as the
third event, and no event before the destination write mutates the
destination file. -/
theorem C4_backup_before_overwrite (tplPath prevContent : Str) (store : Store) :
    ((regenerateEvents tplPath prevContent store).get? 1 =
      some (FsEvent.writeF (backupPath tplPath) prevContent)) ∧
    ((regenerateEvents tplPath prevContent store).get? 2 =
      some (FsEvent.writeF tplPath (regenerateContent store))) ∧
    (∀ k, k < 2 → ∀ e, (regenerateEvents tplPath prevContent store).get? k = some e →
      isWriteTo tplPath e = false) := by
  refine ⟨rfl, rfl, ?_⟩
  intro k hk e he
  have hk2 : k = 0 ∨ k = 1 := by omega
  rcases hk2 with h0 | h1
  · subst h0
    have hg : (regenerateEvents tplPath prevContent store).get? 0 =
        some (FsEvent.readF tplPath) := rfl
    rw [hg] at he
    have he2 := Option.some.inj he
    subst he2
    rfl
  · subst h1
    have hg : (regenerateEvents tplPath prevContent store).get? 1 =
        some (FsEvent.writeF (backupPath tplPath) prevContent) := rfl
    rw [hg] at he
    have he2 := Option.some.inj he
    subst he2
    exact backupPath_beq_false tplPath

theorem C4_backup_before_overwrite_witness :
    (0 : Nat) < 2 ∧ isWriteTo (str "templates.py") (FsEvent.readF (str "templates.py")) = false :=
  ⟨by decide,
   (C4_backup_before_overwrite (str "templates.py") (str "old") []).2.2 0 (by decide)
     (FsEvent.readF (str "templates.py")) (by decide)⟩

/-- C5: for a field present on both the entry and the matched template with
differing normalized values, completion mode adds nothing to the patch for
that field and only records the conflict triple (field, existing value,
template value), while ingestion mode overwrites the merged template with the
raw entry value and reports the field as differing. -/
theorem C5_conflict_policies (entry : Entry) (tpl : Dict Str Str) (f ev tv : Str)
    (hex : EXCLUDED_KEYS.contains f = false)
    (hnd : (dkeys entry).Nodup)
    (hentry : dlookup f entry = some ev)
    (htpl : dlookup f tpl = some tv)
    (hne : ¬(normalize_text ev = normalize_text tv)) :
    dlookup f (completionMerge entry tpl).patch = none ∧
    (f, ev, tv) ∈ (completionMerge entry tpl).conflicts ∧
    dlookup f (ingestionMerge tpl (metaOf entry)).merged = some ev ∧
    f ∈ (ingestionMerge tpl (metaOf entry)).differingFields := by
  have hmeta : dlookup f (metaOf entry) = some ev := by
    rw [dlookup_metaOf, if_neg (by rw [hex]; exact Bool.false_ne_true)]
    exact hentry
  have hing := ingestionMerge_differing tpl (metaOf entry) f ev tv hmeta
    (dkeys_metaOf_nodup entry hnd) htpl (fun hc => hne hc.symm)
  refine ⟨?_, completionMerge_conflict_mem entry tpl f ev tv hentry htpl hne,
    hing.1, hing.2⟩
  apply completionMerge_patch_lookup_none
  rw [hentry]
  rfl

theorem C5_conflict_policies_witness :
    (str "acronym", str "NIPS", str "NeurIPS") ∈
      (completionMerge [(str "ID", str "e1"), (str "acronym", str "NIPS")]
        [(str "acronym", str "NeurIPS")]).conflicts ∧
    dlookup (str "acronym")
      (ingestionMerge [(str "acronym", str "NeurIPS")]
        (metaOf [(str "ID", str "e1"), (str "acronym", str "NIPS")])).merged =
      some (str "NIPS") :=
  ⟨(C5_conflict_policies [(str "ID", str "e1"), (str "acronym", str "NIPS")]
      [(str "acronym", str "NeurIPS")] (str "acronym") (str "NIPS") (str "NeurIPS")
      (by decide) (by decide) (by decide) (by decide) (by decide)).2.1,
   (C5_conflict_policies [(str "ID", str "e1"), (str "acronym", str "NIPS")]
      [(str "acronym", str "NeurIPS")] (str "acronym") (str "NIPS") (str "NeurIPS")
      (by decide) (by decide) (by decide) (by decide) (by decide)).2.2.1⟩

/-- C6: a field of the fixed excluded identity/citation set never appears in
the template-candidate map built from an entry, in the completion patch, in a
recorded completion conflict, or in the merged template, the missing-field
report or the differing-field report of the ingestion merge, for any entry
and any template that does not already carry it. -/
theorem C6_excluded_fields_invariant (entry : Entry) (tpl : Dict Str Str) (k : Str)
    (hk : EXCLUDED_KEYS.contains k = true)
    (htpl : dlookup k tpl = none) :
    dlookup k (metaOf entry) = none ∧
    dlookup k (completionMerge entry tpl).patch = none ∧
    (∀ c ∈ (completionMerge entry tpl).conflicts, ¬(c.1 = k)) ∧
    dlookup k (ingestionMerge tpl (metaOf entry)).merged = none ∧
    ¬(k ∈ (ingestionMerge tpl (metaOf entry)).missingFields) ∧
    ¬(k ∈ (ingestionMerge tpl (metaOf entry)).differingFields) := by
  have hing := ingestionMerge_excluded tpl entry k hk htpl
  refine ⟨?_, ?_, ?_, hing.1, hing.2.1, hing.2.2⟩
  · rw [dlookup_metaOf, if_pos hk]
  · exact dlookup_eq_none_of_sublist k _ tpl (completionMerge_patch_sublist entry tpl) htpl
  · intro c hc heq
    obtain ⟨kv, hkv, hck⟩ := completionMerge_conflict_keys entry tpl c hc
    exact (dlookup_eq_none_iff k tpl).mp htpl kv hkv (by rw [← hck, heq])

theorem C6_excluded_fields_invariant_witness :
    EXCLUDED_KEYS.contains (str "author") = true ∧
    dlookup (str "author")
      (metaOf [(str "author", str "A. Person"), (str "acronym", str "X")]) = none :=
  ⟨by decide,
   (C6_excluded_fields_invariant [(str "author", str "A. Person"), (str "acronym", str "X")]
     [(str "acronym", str "Y")] (str "author") (by decide) (by decide)).1⟩

/-- C7: the export sort realises the key (negated numeric year, lowercased
venue): a year string with no digits has year value minus one, the exported
list is sorted (no later item is strictly below an earlier one under the
descending-year ascending-venue order) and is a permutation of the store, and
the concrete store with years 2021 (venue B), 2019, n.d., 2021 (venue A)
exports in the order 2021/A, 2021/B, 2019, n.d. -/
theorem C7_export_order (items : List TplItem) :
    (∀ y : Str, y.all (fun c => !c.isDigit) = true → yearValue y = -1) ∧
    (exportStore items).Pairwise (fun a b => ltItem b a = false) ∧
    (exportStore items).Perm items ∧
    exportStore
      [((str "B", str "2021"), []), ((str "C", str "2019"), []),
       ((str "D", str "n.d."), []), ((str "A", str "2021"), [])] =
      [((str "A", str "2021"), []), ((str "B", str "2021"), []),
       ((str "C", str "2019"), []), ((str "D", str "n.d."), [])] :=
  ⟨yearValue_no_digits, exportStore_pairwise items, exportStore_perm items, by decide⟩

theorem C7_export_order_witness :
    (str "n.d.").all (fun c => !c.isDigit) = true ∧ yearValue (str "n.d.") = -1 :=
  ⟨by decide, (C7_export_order []).1 (str "n.d.") (by decide)⟩

/-- C8, counterexample to first-registered resolution in ingestion mode: the
raw keys (A, 2020) and (braced A, 2020) normalize identically, yet the
normalized index built by the dict comprehension maps their shared normalized
key to the second-registered raw key, because a later insertion overwrites an
earlier one. -/
theorem C8_first_registered_counterexample :
    normKey (str "A", str "2020") = normKey (chLB :: str "A" ++ [chRB], str "2020") ∧
    ¬((str "A", str "2020") = (chLB :: str "A" ++ [chRB], str "2020")) ∧
    dlookup (str "a", str "2020")
      (buildNormIndex [(str "A", str "2020"), (chLB :: str "A" ++ [chRB], str "2020")]) =
      some (chLB :: str "A" ++ [chRB], str "2020") := by
  refine ⟨by decide, by decide, by decide⟩

/-- C8 (amended): the two modes resolve normalized-key collisions in opposite
directions.  The completion-mode template scan returns the first store item
whose normalized key matches, while the ingestion-mode normalized index
resolves every normalized key to the last raw key registered with that
normalized form. -/
theorem C8_collision_resolution_amended (pre post : Store) (item : TplItem) (cv cy : Str)
    (hpre : ∀ it ∈ pre, ¬(normalize_text it.1.1 = cv ∧ normalize_text it.1.2 = cy))
    (hit : normalize_text item.1.1 = cv ∧ normalize_text item.1.2 = cy) :
    findTemplate (pre ++ item :: post) cv cy = some item.2 ∧
    ∀ keys : List (Str × Str), ∀ nk,
      dlookup nk (buildNormIndex keys) =
        keys.reverse.find? (fun kv => normKey kv == nk) :=
  ⟨findTemplate_first pre post item cv cy hpre hit,
   fun keys nk => dlookup_buildNormIndex keys nk⟩

theorem C8_collision_resolution_amended_witness :
    findTemplate [((str "A", str "2020"), [(str "f", str "x")])] (str "a") (str "2020") =
      some [(str "f", str "x")] :=
  (C8_collision_resolution_amended [] [] ((str "A", str "2020"), [(str "f", str "x")])
    (str "a") (str "2020") (fun it hit => absurd hit (List.not_mem_nil it)) (by decide)).1

/-- C9, counterexample to the missing-template log being written on every
run: in this non-dry run the single entry matches no template, so the
missing-template dictionary is nonempty, yet the only file written is the
patched output and nothing is written to the missing-template log path. -/
theorem C9_log_every_run_counterexample :
    ¬((pass1 [] [[(str "ID", str "e1"), (str "year", str "2099"),
        (str "booktitle", str "Some New Workshop")]]).missing = []) ∧
    completerRun [] [[(str "ID", str "e1"), (str "year", str "2099"),
        (str "booktitle", str "Some New Workshop")]] [str "line1"]
        (str "in.bib") (str "out.bib") false (str ".") =
      { written := [(str "out.bib", str "line1")] } ∧
    (∀ w ∈ (completerRun [] [[(str "ID", str "e1"), (str "year", str "2099"),
        (str "booktitle", str "Some New Workshop")]] [str "line1"]
        (str "in.bib") (str "out.bib") false (str ".")).written,
      ¬(w.1 = missingLogPath (str ".") (str "in.bib"))) := by
  refine ⟨by decide, by decide, by decide⟩

/-- C9 (amended): in a dry run (and only then) the completer writes the
missing-template log to the path derived from the input file name; its rows
are one per distinct unmatched normalized key because the key list of the
missing dictionary is duplicate-free, and the pair recorded for a normalized
key is the raw (venue, year) of the first entry that contributed that key. -/
theorem C9_missing_log_amended (templates : Store) (entries : List Entry)
    (rawLines : List Str) (inputPath outputPath logDir : Str) :
    (completerRun templates entries rawLines inputPath outputPath true logDir).written =
      [(conflictLogPath logDir inputPath,
        writeLogContent (str "conflicts: entry_id\tfield\texisting\ttemplate")
          (conflictRowsOf (pass1 templates entries).conflicts)),
       (missingLogPath logDir inputPath,
        writeLogContent (str "missing templates: venue\tyear")
          (missingRowsOf (pass1 templates entries).missing))] ∧
    (dkeys (pass1 templates entries).missing).Nodup ∧
    (∀ nk : Str × Str,
      dlookup nk (pass1 templates entries).missing =
        ((entries.filterMap (missingContribution templates)).find?
          (fun kr => kr.1 == nk)).map Prod.snd) := by
  refine ⟨rfl, ?_, ?_⟩
  · unfold pass1
    rw [pass1_missing_fold templates entries ⟨[], [], []⟩]
    exact missingFold_nodup templates entries [] List.nodup_nil
  · intro nk
    unfold pass1
    rw [pass1_missing_fold templates entries ⟨[], [], []⟩]
    exact missingFold_first templates entries [] nk rfl

/-- C10: the header search scans the whole line, so a header-shaped substring
inside a comment line also matches; here the comment line yields identifier
key1, the pending patch for key1 is inserted directly after that line, and
the patch is consumed. -/
theorem C10_header_search_anywhere :
    matchedId (str "% see @misc" ++ chLB :: str "key1, more") = some (str "key1") ∧
    applyLines [str "% see @misc" ++ chLB :: str "key1, more"]
        [(str "key1", [(str "acronym", str "X")])] =
      ([str "% see @misc" ++ chLB :: str "key1, more",
        renderPatchLine (str "acronym") (str "X")], []) := by
  exact ⟨by decide, by decide⟩

end BibCC
